import Mathlib

/-!
# COFFEE expression-rewriting engine: a shallow embedding

This file embeds, in Lean, the expression-rewriting core of the COFFEE
AST optimizer (`coffee/rewriter.py` and `coffee/optimizer.py`):

* `ExpressionHoister` — generalized loop-invariant code motion (LICM):
  classification of sub-expressions (`_extract_exprs`), the fixpoint
  extraction loop (`licm`), dependency-directed placement of hoisted
  temporaries, and the temporary-name template `_hoisted_sym`;
* `ExpressionExpander` — product-over-sum distribution (`_expand`) and the
  name templates of `_expanded_sym`;
* `ExpressionFactorizer` — term regrouping (`_factorize`, `_simplify_sum`);
* `ExpressionRewriter` — mode selection for `expand`/`factorize` and the
  global-registry `reset`;
* `LoopOptimizer.rewrite` orchestration, `CPULoopOptimizer.unroll`,
  `CPULoopOptimizer.permute`, `CPULoopOptimizer.blas`.

The AST node classes (`base.py`), the visitors (`coffee/visitors`) and the
helpers of `utils.py` (`is_perfect_loop`, `ast_make_expr`, `ast_replace`,
`explore_operator`, `od_find_next`, ...) are not part of the two source
files; where a definition depends on them it is modelled from the
specification's data model and glossary, and this is recorded in the
definition's doc comment.

Python strings are embedded as `List Char` (named `Str` below), Python
tuples/lists as `List`, dictionaries as insertion-ordered association
lists, and Python `set`s of AST objects (which hash by object identity
and therefore behave as collections of occurrences) as lists of
occurrences.  Numeric evaluation is over `ℚ`.
-/

set_option maxHeartbeats 1000000

namespace Coffee

/-- Python strings, embedded as lists of characters. -/
abbrev Str := List Char

/-! ## Decimal rendering of naturals (the `%d` of the name templates) -/

/-- Little-endian decimal digits of `n`, with explicit fuel (the fuel is
always instantiated with `n` itself, which suffices). Models `"%d" % n`. -/
def natStrAux : Nat → Nat → Str
  | 0, _ => []
  | fuel + 1, n =>
      if n = 0 then []
      else Char.ofNat (48 + n % 10) :: natStrAux fuel (n / 10)

/-- Decimal rendering of a natural number, as Python's `"%d"` template. -/
def natStr (n : Nat) : Str :=
  if n = 0 then ['0'] else (natStrAux n n).reverse

/-- Reading a little-endian digit string back; used to prove `natStr`
injective. -/
def parseRev : Str → Nat
  | [] => 0
  | c :: cs => (c.toNat - 48) + 10 * parseRev cs

theorem parseRev_natStrAux : ∀ (fuel n : Nat), n ≤ fuel →
    parseRev (natStrAux fuel n) = n := by
  intro fuel
  induction fuel with
  | zero => intro n h; interval_cases n; simp [natStrAux, parseRev]
  | succ f ih =>
      intro n h
      by_cases h0 : n = 0
      · simp [natStrAux, h0, parseRev]
      · have hdiv : n / 10 ≤ f := by
          have : n / 10 < n := Nat.div_lt_self (Nat.pos_of_ne_zero h0) (by omega)
          omega
        have hd : (Char.ofNat (48 + n % 10)).toNat = 48 + n % 10 := by
          have hlt : n % 10 < 10 := Nat.mod_lt _ (by omega)
          have : ∀ d, d < 10 → (Char.ofNat (48 + d)).toNat = 48 + d := by decide
          exact this _ hlt
        simp only [natStrAux, h0, if_false, parseRev, ih _ hdiv, hd]
        omega

theorem natStr_inj : ∀ {m n : Nat}, natStr m = natStr n → m = n := by
  intro m n h
  by_cases hm : m = 0 <;> by_cases hn : n = 0
  · omega
  · exfalso
    simp only [natStr, hm, hn, if_true, if_false] at h
    have h0 : natStrAux n n = ['0'] := by
      have := congrArg List.reverse h
      simpa using this.symm
    have := parseRev_natStrAux n n le_rfl
    rw [h0] at this
    simp [parseRev] at this
    omega
  · exfalso
    simp only [natStr, hm, hn, if_true, if_false] at h
    have h0 : natStrAux m m = ['0'] := by
      have := congrArg List.reverse h
      simpa using this
    have := parseRev_natStrAux m m le_rfl
    rw [h0] at this
    simp [parseRev] at this
    omega
  · simp only [natStr, hm, hn, if_false] at h
    have h' : natStrAux m m = natStrAux n n := by
      have := congrArg List.reverse h
      simpa using this
    have hm' := parseRev_natStrAux m m le_rfl
    have hn' := parseRev_natStrAux n n le_rfl
    rw [h'] at hm'
    omega

/-- Every character of a decimal rendering is an ASCII digit. -/
def isDigitCh (c : Char) : Bool := 48 ≤ c.toNat && c.toNat ≤ 57

theorem natStrAux_digits : ∀ (fuel n : Nat), ∀ c ∈ natStrAux fuel n,
    isDigitCh c = true := by
  intro fuel
  induction fuel with
  | zero => intro n c hc; simp [natStrAux] at hc
  | succ f ih =>
      intro n c hc
      by_cases h0 : n = 0
      · simp [natStrAux, h0] at hc
      · simp only [natStrAux, h0, if_false, List.mem_cons] at hc
        rcases hc with hc | hc
        · subst hc
          have hlt : n % 10 < 10 := Nat.mod_lt _ (by omega)
          have : ∀ d, d < 10 → isDigitCh (Char.ofNat (48 + d)) = true := by decide
          exact this _ hlt
        · exact ih _ _ hc

theorem natStr_digits (n : Nat) : ∀ c ∈ natStr n, isDigitCh c = true := by
  intro c hc
  by_cases h0 : n = 0
  · simp [natStr, h0] at hc; subst hc; decide
  · simp only [natStr, h0, if_false, List.mem_reverse] at hc
    exact natStrAux_digits n n c hc

theorem digit_ne_underscore {c : Char} (h : isDigitCh c = true) : c ≠ '_' := by
  intro he; subst he; simp [isDigitCh] at h

/-! ## `'_'.join` and its injectivity on underscore-free components -/

/-- Python's `'_'.join(parts)`. -/
def joinU : List Str → Str
  | [] => []
  | [x] => x
  | x :: y :: ys => x ++ '_' :: joinU (y :: ys)

theorem joinU_append : ∀ (xs ys : List Str), xs ≠ [] → ys ≠ [] →
    joinU (xs ++ ys) = joinU xs ++ '_' :: joinU ys := by
  intro xs
  induction xs with
  | nil => intro ys h; exact absurd rfl h
  | cons x xs ih =>
      intro ys _ hys
      cases xs with
      | nil =>
          cases ys with
          | nil => exact absurd rfl hys
          | cons y ys => simp [joinU]
      | cons x' xs' =>
          have h2 := ih ys (by simp) hys
          calc joinU ((x :: x' :: xs') ++ ys)
              = x ++ '_' :: joinU ((x' :: xs') ++ ys) := rfl
            _ = x ++ '_' :: (joinU (x' :: xs') ++ '_' :: joinU ys) := by rw [h2]
            _ = joinU (x :: x' :: xs') ++ '_' :: joinU ys := by
                  simp [joinU, List.append_assoc]

/-- Splitting at the first separator: if the prefixes are underscore-free,
both sides agree componentwise. -/
theorem split_at_sep : ∀ (a b s t : Str), '_' ∉ a → '_' ∉ b →
    a ++ '_' :: s = b ++ '_' :: t → a = b ∧ s = t := by
  intro a
  induction a with
  | nil =>
      intro b s t _ hb h
      cases b with
      | nil => simpa using h
      | cons c b' =>
          exfalso
          simp only [List.nil_append, List.cons_append, List.cons.injEq] at h
          exact hb (h.1 ▸ List.mem_cons_self _ _)
  | cons c a' ih =>
      intro b s t ha hb h
      cases b with
      | nil =>
          exfalso
          simp only [List.cons_append, List.nil_append, List.cons.injEq] at h
          exact ha (h.1 ▸ List.mem_cons_self _ _)
      | cons d b' =>
          simp only [List.cons_append, List.cons.injEq] at h
          obtain ⟨hcd, hrest⟩ := h
          have ha' : '_' ∉ a' := fun hm => ha (List.mem_cons_of_mem _ hm)
          have hb' : '_' ∉ b' := fun hm => hb (List.mem_cons_of_mem _ hm)
          obtain ⟨h1, h2⟩ := ih b' s t ha' hb' hrest
          exact ⟨by rw [hcd, h1], h2⟩

theorem joinU_inj : ∀ (xs ys : List Str), xs ≠ [] → ys ≠ [] →
    (∀ x ∈ xs, '_' ∉ x) → (∀ y ∈ ys, '_' ∉ y) →
    joinU xs = joinU ys → xs = ys := by
  intro xs
  induction xs with
  | nil => intro ys h; exact absurd rfl h
  | cons x xs ih =>
      intro ys _ hys hxf hyf h
      cases ys with
      | nil => exact absurd rfl hys
      | cons y ys' =>
          cases xs with
          | nil =>
              cases ys' with
              | nil => simpa [joinU] using h
              | cons y' ys'' =>
                  exfalso
                  simp only [joinU] at h
                  have : '_' ∈ x := by
                    rw [h]
                    simp
                  exact hxf x (List.mem_cons_self _ _) this
          | cons x' xs' =>
              cases ys' with
              | nil =>
                  exfalso
                  simp only [joinU] at h
                  have : '_' ∈ y := by
                    rw [← h]
                    simp
                  exact hyf y (List.mem_cons_self _ _) this
              | cons y' ys'' =>
                  simp only [joinU] at h
                  have hx := hxf x (List.mem_cons_self _ _)
                  have hy := hyf y (List.mem_cons_self _ _)
                  obtain ⟨h1, h2⟩ := split_at_sep x y _ _ hx hy h
                  have := ih (y' :: ys'') (by simp) (by simp)
                    (fun z hz => hxf z (List.mem_cons_of_mem _ hz))
                    (fun z hz => hyf z (List.mem_cons_of_mem _ hz))
                    (by simpa [joinU] using h2)
                  rw [h1, this]

/-! ## Deduplication keeping the first occurrence (Python `dict` key order) -/

/-- Deduplicate a list keeping the first occurrence of each element, as the
key order of a Python `dict`/`defaultdict` built by insertion. -/
def dkfAux {α : Type} [DecidableEq α] : List α → List α → List α
  | _, [] => []
  | seen, x :: xs =>
      if x ∈ seen then dkfAux seen xs else x :: dkfAux (x :: seen) xs

def dkf {α : Type} [DecidableEq α] (l : List α) : List α := dkfAux [] l

theorem dkfAux_not_mem_seen {α : Type} [DecidableEq α] :
    ∀ (seen l : List α) (x : α), x ∈ seen → x ∉ dkfAux seen l := by
  intro seen l
  induction l generalizing seen with
  | nil => intro x _; simp [dkfAux]
  | cons y ys ih =>
      intro x hx
      by_cases hy : y ∈ seen
      · simpa [dkfAux, hy] using ih seen x hx
      · simp only [dkfAux, hy, if_false, List.mem_cons]
        push_neg
        constructor
        · intro he; subst he; exact hy hx
        · exact ih (y :: seen) x (List.mem_cons_of_mem _ hx)

theorem dkfAux_nodup {α : Type} [DecidableEq α] :
    ∀ (seen l : List α), (dkfAux seen l).Nodup := by
  intro seen l
  induction l generalizing seen with
  | nil => simp [dkfAux]
  | cons y ys ih =>
      by_cases hy : y ∈ seen
      · simpa [dkfAux, hy] using ih seen
      · simp only [dkfAux, hy, if_false, List.nodup_cons]
        exact ⟨dkfAux_not_mem_seen _ _ _ (List.mem_cons_self _ _), ih _⟩

theorem dkf_nodup {α : Type} [DecidableEq α] (l : List α) : (dkf l).Nodup :=
  dkfAux_nodup [] l

theorem dkfAux_sublist {α : Type} [DecidableEq α] :
    ∀ (seen l : List α), (dkfAux seen l).Sublist l := by
  intro seen l
  induction l generalizing seen with
  | nil => simp [dkfAux]
  | cons y ys ih =>
      by_cases hy : y ∈ seen
      · simp only [dkfAux, hy, if_true]
        exact (ih seen).cons _
      · simp only [dkfAux, hy, if_false]
        exact (ih (y :: seen)).cons₂ _

theorem dkfAux_mem {α : Type} [DecidableEq α] :
    ∀ (seen l : List α) (x : α), x ∈ l → x ∉ seen → x ∈ dkfAux seen l := by
  intro seen l
  induction l generalizing seen with
  | nil => intro x hx; simp at hx
  | cons y ys ih =>
      intro x hx hxs
      rcases List.mem_cons.mp hx with he | hm
      · subst he
        by_cases hy : x ∈ seen
        · exact absurd hy hxs
        · simp [dkfAux, hy]
      · by_cases hy : y ∈ seen
        · simpa [dkfAux, hy] using ih seen x hm hxs
        · simp only [dkfAux, hy, if_false, List.mem_cons]
          by_cases he : x = y
          · exact Or.inl he
          · exact Or.inr (ih (y :: seen) x hm (by simp [hxs, he]))

theorem dkf_mem {α : Type} [DecidableEq α] {l : List α} {x : α} (h : x ∈ l) :
    x ∈ dkf l := dkfAux_mem [] l x h (by simp)

/-! ## The expression AST

The node set of `base.py` (external to the two source files; modelled from
the specification §3 data model): `Symbol` carries a name, a rank (ordered
tuple of dimension labels) and an optional per-dimension `(stride, offset)`
pair list; `Par` is `Parenthesized`; `Sum`/`Sub`/`Prod`/`Div` are the binary
arithmetic nodes; `FunCall` has a name and argument list.  `Neg` is the
unary minus the expander manufactures for subtraction expansion
(`rewriter.py` line 655); it never occurs in kernel-grammar input
statements (`negFree` below). -/

inductive AExpr where
  | sym     : Str → List Str → Option (List (Nat × Nat)) → AExpr
  | par     : AExpr → AExpr
  | sum     : AExpr → AExpr → AExpr
  | sub     : AExpr → AExpr → AExpr
  | prod    : AExpr → AExpr → AExpr
  | div     : AExpr → AExpr → AExpr
  | neg     : AExpr → AExpr
  | funcall : Str → List AExpr → AExpr

instance : Inhabited AExpr := ⟨.sym [] [] none⟩

mutual
/-- Structural (boolean) equality on expressions. -/
def aeq : AExpr → AExpr → Bool
  | .sym n r o, .sym n' r' o' => n = n' && r = r' && o = o'
  | .par e, .par e' => aeq e e'
  | .sum l r, .sum l' r' => aeq l l' && aeq r r'
  | .sub l r, .sub l' r' => aeq l l' && aeq r r'
  | .prod l r, .prod l' r' => aeq l l' && aeq r r'
  | .div l r, .div l' r' => aeq l l' && aeq r r'
  | .neg e, .neg e' => aeq e e'
  | .funcall f args, .funcall f' args' => f = f' && aeqL args args'
  | _, _ => false

def aeqL : List AExpr → List AExpr → Bool
  | [], [] => true
  | e :: es, e' :: es' => aeq e e' && aeqL es es'
  | _, _ => false
end

mutual
theorem aeq_iff : ∀ a b, aeq a b = true ↔ a = b
  | .sym n r o, b => by cases b <;> simp [aeq, and_assoc]
  | .par e, b => by cases b <;> simp [aeq, aeq_iff e]
  | .sum l r, b => by cases b <;> simp [aeq, aeq_iff l, aeq_iff r]
  | .sub l r, b => by cases b <;> simp [aeq, aeq_iff l, aeq_iff r]
  | .prod l r, b => by cases b <;> simp [aeq, aeq_iff l, aeq_iff r]
  | .div l r, b => by cases b <;> simp [aeq, aeq_iff l, aeq_iff r]
  | .neg e, b => by cases b <;> simp [aeq, aeq_iff e]
  | .funcall f args, b => by cases b <;> simp [aeq, aeqL_iff args]

theorem aeqL_iff : ∀ as bs, aeqL as bs = true ↔ as = bs
  | [], bs => by cases bs <;> simp [aeqL]
  | a :: as, bs => by cases bs <;> simp [aeqL, aeq_iff a, aeqL_iff as]
end

instance : DecidableEq AExpr := fun a b => decidable_of_iff _ (aeq_iff a b)

mutual
/-- Node count of an expression tree. -/
def sizeA : AExpr → Nat
  | .sym _ _ _ => 1
  | .par e => 1 + sizeA e
  | .sum l r => 1 + sizeA l + sizeA r
  | .sub l r => 1 + sizeA l + sizeA r
  | .prod l r => 1 + sizeA l + sizeA r
  | .div l r => 1 + sizeA l + sizeA r
  | .neg e => 1 + sizeA e
  | .funcall _ args => 1 + sizeL args

def sizeL : List AExpr → Nat
  | [] => 0
  | e :: es => sizeA e + sizeL es
end

theorem sizeA_pos (e : AExpr) : 0 < sizeA e := by
  cases e <;> (simp only [sizeA]; omega)

mutual
/-- Number of non-`Symbol` nodes of a tree: the measure that strictly
decreases when an extracted (hence non-symbol) subtree is replaced by a
temporary symbol. -/
def nsize : AExpr → Nat
  | .sym _ _ _ => 0
  | .par e => 1 + nsize e
  | .sum l r => 1 + nsize l + nsize r
  | .sub l r => 1 + nsize l + nsize r
  | .prod l r => 1 + nsize l + nsize r
  | .div l r => 1 + nsize l + nsize r
  | .neg e => 1 + nsize e
  | .funcall _ args => 1 + nsizeL args

def nsizeL : List AExpr → Nat
  | [] => 0
  | e :: es => nsize e + nsizeL es
end

mutual
theorem nsize_le_sizeA : ∀ e : AExpr, nsize e ≤ sizeA e
  | .sym n r o => by simp [nsize, sizeA]
  | .par e => by
      have := nsize_le_sizeA e
      simp only [nsize, sizeA]; omega
  | .sum l r => by
      have := nsize_le_sizeA l; have := nsize_le_sizeA r
      simp only [nsize, sizeA]; omega
  | .sub l r => by
      have := nsize_le_sizeA l; have := nsize_le_sizeA r
      simp only [nsize, sizeA]; omega
  | .prod l r => by
      have := nsize_le_sizeA l; have := nsize_le_sizeA r
      simp only [nsize, sizeA]; omega
  | .div l r => by
      have := nsize_le_sizeA l; have := nsize_le_sizeA r
      simp only [nsize, sizeA]; omega
  | .neg e => by
      have := nsize_le_sizeA e
      simp only [nsize, sizeA]; omega
  | .funcall f args => by
      have := nsizeL_le_sizeL args
      simp only [nsize, sizeA]; omega

theorem nsizeL_le_sizeL : ∀ es : List AExpr, nsizeL es ≤ sizeL es
  | [] => by simp [nsizeL, sizeL]
  | e :: es => by
      have := nsize_le_sizeA e; have := nsizeL_le_sizeL es
      simp only [nsizeL, sizeL]; omega
end

mutual
/-- `true` when the tree contains no `Neg` node: the input grammar of
kernel statements (spec §3) has no unary minus. -/
def negFree : AExpr → Bool
  | .sym _ _ _ => true
  | .par e => negFree e
  | .sum l r => negFree l && negFree r
  | .sub l r => negFree l && negFree r
  | .prod l r => negFree l && negFree r
  | .div l r => negFree l && negFree r
  | .neg _ => false
  | .funcall _ args => negFreeL args

def negFreeL : List AExpr → Bool
  | [] => true
  | e :: es => negFree e && negFreeL es
end

/-- Name of a `Symbol` node (junk on other nodes). -/
def symName : AExpr → Str
  | .sym n _ _ => n
  | _ => []

/-- Rank of a `Symbol` node (junk on other nodes). -/
def symRank : AExpr → List Str
  | .sym _ r _ => r
  | _ => []

def isSym : AExpr → Bool
  | .sym _ _ _ => true
  | _ => false

mutual
/-- All `Symbol` nodes of a tree in visit order; models
`visit(node, search=Symbol)['search'][Symbol]`. -/
def collectSyms : AExpr → List AExpr
  | .sym n r o => [.sym n r o]
  | .par e => collectSyms e
  | .sum l r => collectSyms l ++ collectSyms r
  | .sub l r => collectSyms l ++ collectSyms r
  | .prod l r => collectSyms l ++ collectSyms r
  | .div l r => collectSyms l ++ collectSyms r
  | .neg e => collectSyms e
  | .funcall _ args => collectSymsL args

def collectSymsL : List AExpr → List AExpr
  | [] => []
  | e :: es => collectSyms e ++ collectSymsL es
end

mutual
/-- Printed form of a node; models `str(node)` (the `gencode` printing of
`base.py`, external to the source files; modelled as plain C-like
rendering: a symbol prints its name followed by one bracketed index per
rank entry, with `stride*dim+offset` for a non-trivial offset pair). -/
def render : AExpr → Str
  | .sym n r o =>
      n ++ (match o with
            | none => (r.map (fun d => '[' :: d ++ [']'])).flatten
            | some ofs =>
                ((r.zip ofs).map (fun p =>
                  if p.2 = (1, 0) then '[' :: p.1 ++ [']']
                  else '[' :: natStr p.2.1 ++ '*' :: p.1 ++ '+' :: natStr p.2.2 ++ [']'])).flatten)
  | .par e => '(' :: render e ++ [')']
  | .sum l r => render l ++ '+' :: render r
  | .sub l r => render l ++ '-' :: render r
  | .prod l r => render l ++ '*' :: render r
  | .div l r => render l ++ '/' :: render r
  | .neg e => '-' :: render e
  | .funcall f args => f ++ '(' :: renderArgs args ++ [')']

def renderArgs : List AExpr → Str
  | [] => []
  | [e] => render e
  | e :: es => render e ++ ',' :: renderArgs es
end

mutual
/-- `true` when `k` occurs as a subtree of `e` (including `e` itself). -/
def occursIn (k : AExpr) : AExpr → Bool
  | .sym n r o => .sym n r o = k
  | .par e => (AExpr.par e = k) || occursIn k e
  | .sum l r => (AExpr.sum l r = k) || occursIn k l || occursIn k r
  | .sub l r => (AExpr.sub l r = k) || occursIn k l || occursIn k r
  | .prod l r => (AExpr.prod l r = k) || occursIn k l || occursIn k r
  | .div l r => (AExpr.div l r = k) || occursIn k l || occursIn k r
  | .neg e => (AExpr.neg e = k) || occursIn k e
  | .funcall f args => (AExpr.funcall f args = k) || occursInL k args

def occursInL (k : AExpr) : List AExpr → Bool
  | [] => false
  | e :: es => occursIn k e || occursInL k es
end

/-- First value bound to `e` in an association list of expressions. -/
def lookupA : List (AExpr × AExpr) → AExpr → Option AExpr
  | [], _ => none
  | kv :: m, e => if kv.1 = e then some kv.2 else lookupA m e

mutual
/-- `ast_replace(node, to_replace)` (a `utils.py` helper, external to the
source files; modelled from the specification: replace every subtree that
matches a key of the map by the key's image, top-down, without descending
into replaced subtrees). -/
def replaceA (m : List (AExpr × AExpr)) : AExpr → AExpr
  | .sym n r o =>
      match lookupA m (.sym n r o) with
      | some v => v
      | none => .sym n r o
  | .par e =>
      match lookupA m (.par e) with
      | some v => v
      | none => .par (replaceA m e)
  | .sum l r =>
      match lookupA m (.sum l r) with
      | some v => v
      | none => .sum (replaceA m l) (replaceA m r)
  | .sub l r =>
      match lookupA m (.sub l r) with
      | some v => v
      | none => .sub (replaceA m l) (replaceA m r)
  | .prod l r =>
      match lookupA m (.prod l r) with
      | some v => v
      | none => .prod (replaceA m l) (replaceA m r)
  | .div l r =>
      match lookupA m (.div l r) with
      | some v => v
      | none => .div (replaceA m l) (replaceA m r)
  | .neg e =>
      match lookupA m (.neg e) with
      | some v => v
      | none => .neg (replaceA m e)
  | .funcall f args =>
      match lookupA m (.funcall f args) with
      | some v => v
      | none => .funcall f (replaceAL m args)

def replaceAL (m : List (AExpr × AExpr)) : List AExpr → List AExpr
  | [] => []
  | e :: es => replaceA m e :: replaceAL m es
end

mutual
/-- `ast_replace(node, to_replace, mode='symbol')` (external helper,
modelled: only `Symbol` leaves are matched against the keys; non-symbol
keys never fire). -/
def substS (m : List (AExpr × AExpr)) : AExpr → AExpr
  | .sym n r o =>
      match lookupA m (.sym n r o) with
      | some v => v
      | none => .sym n r o
  | .par e => .par (substS m e)
  | .sum l r => .sum (substS m l) (substS m r)
  | .sub l r => .sub (substS m l) (substS m r)
  | .prod l r => .prod (substS m l) (substS m r)
  | .div l r => .div (substS m l) (substS m r)
  | .neg e => .neg (substS m e)
  | .funcall f args => .funcall f (substSL m args)

def substSL (m : List (AExpr × AExpr)) : List AExpr → List AExpr
  | [] => []
  | e :: es => substS m e :: substSL m es
end

mutual
/-- Substitute every `Symbol` named `n` by `d`; used to expand a hoisted
temporary back into its defining expression. -/
def substName (n : Str) (d : AExpr) : AExpr → AExpr
  | .sym n' r o => if n' = n then d else .sym n' r o
  | .par e => .par (substName n d e)
  | .sum l r => .sum (substName n d l) (substName n d r)
  | .sub l r => .sub (substName n d l) (substName n d r)
  | .prod l r => .prod (substName n d l) (substName n d r)
  | .div l r => .div (substName n d l) (substName n d r)
  | .neg e => .neg (substName n d e)
  | .funcall f args => .funcall f (substNameL n d args)

def substNameL (n : Str) (d : AExpr) : List AExpr → List AExpr
  | [] => []
  | e :: es => substName n d e :: substNameL n d es
end

mutual
/-- Number of `Symbol` occurrences named `n`; used for the
multiply-referenced flag recorded in the expression graph. -/
def countName (n : Str) : AExpr → Nat
  | .sym n' _ _ => if n' = n then 1 else 0
  | .par e => countName n e
  | .sum l r => countName n l + countName n r
  | .sub l r => countName n l + countName n r
  | .prod l r => countName n l + countName n r
  | .div l r => countName n l + countName n r
  | .neg e => countName n e
  | .funcall _ args => countNameL n args

def countNameL (n : Str) : List AExpr → Nat
  | [] => 0
  | e :: es => countName n e + countNameL n es
end

mutual
/-- Evaluation of an expression under a numeric assignment `σ` to symbol
occurrences and an interpretation `Φ` of function calls (the
specification's "concrete numeric assignment to input symbols"; exact
arithmetic over `ℚ`, with total division). -/
def evalA (σ : Str → List Str → Option (List (Nat × Nat)) → ℚ)
    (Φ : Str → List ℚ → ℚ) : AExpr → ℚ
  | .sym n r o => σ n r o
  | .par e => evalA σ Φ e
  | .sum l r => evalA σ Φ l + evalA σ Φ r
  | .sub l r => evalA σ Φ l - evalA σ Φ r
  | .prod l r => evalA σ Φ l * evalA σ Φ r
  | .div l r => evalA σ Φ l / evalA σ Φ r
  | .neg e => - evalA σ Φ e
  | .funcall f args => Φ f (evalArgs σ Φ args)

def evalArgs (σ : Str → List Str → Option (List (Nat × Nat)) → ℚ)
    (Φ : Str → List ℚ → ℚ) : List AExpr → List ℚ
  | [] => []
  | e :: es => evalA σ Φ e :: evalArgs σ Φ es
end

def isPar : AExpr → Bool
  | .par _ => true
  | _ => false

/-! ## Statements and loop nests

Statement-level nodes (spec §3): assignments/increments, declarations,
`For` loops (dimension label, trip-count bound, increment step, body) and
opaque `FlatBlock` text. -/

inductive Stmt where
  | assign (lhs rhs : AExpr)
  | incr (lhs rhs : AExpr)
  | decl (name : Str) (rank : List Str)
  | forS (dim : Str) (size : Nat) (step : Nat) (body : List Stmt)
  | flat (s : Str)

def isFor : Stmt → Bool
  | .forS _ _ _ _ => true
  | _ => false

/-- `is_perfect_loop` (a `utils.py` helper, external to the source files;
modelled from the specification glossary: a loop is perfect when every
body on the way down consists solely of its single nested loop, the
innermost body being free of loops). -/
def isPerfectLoop : Stmt → Bool
  | .forS _ _ _ body =>
      match body with
      | [s] => if isFor s then isPerfectLoop s else true
      | _ => body.all (fun st => !(isFor st))
  | _ => false

mutual
/-- Maximum `For`-nesting depth; models `visit(...)['max_depth']` (the
visitor is external to the source files; modelled from its use in
`CPULoopOptimizer.blas`). -/
def maxDepth : Stmt → Nat
  | .forS _ _ _ body => 1 + maxDepthL body
  | _ => 0

def maxDepthL : List Stmt → Nat
  | [] => 0
  | s :: ss => max (maxDepth s) (maxDepthL ss)
end

/-! ## The Expression Hoister: generalized LICM -/

/-- The classification states of `_extract_exprs` (lines 277-279). -/
inductive HInfo where
  | invariant
  | search
  | hoisted
deriving DecidableEq

/-- The per-expression context of a hoisting run: the symbol dependency
map produced by the visitor (`visit(header)['symbols_dep']`, external to
the source files; modelled as a function of the symbol occurrence), the
expression dimensions `expr_info.dims` and domain `expr_info.domain`, the
enclosing loops `expr_info.loops` (outermost first), the map
`expr_info.loops_from_dims` as ordered `(dim, size)` pairs (`MetaExpr` is
external; spec §3), and the `nrank_tmps`/`outer_only` switches of
`licm`. -/
structure LicmCtx where
  symDep : Str → List Str → Option (List (Nat × Nat)) → List Str
  dims : List Str
  domain : List Str
  loops : List Stmt
  dimLoops : List (Str × Nat)
  nrankTmps : Bool
  outerOnly : Bool

/-- `is_perfect_loop(self.expr_info.out_loop)` — the outermost loop. -/
def LicmCtx.outPerfect (ctx : LicmCtx) : Bool :=
  match ctx.loops with
  | l :: _ => isPerfectLoop l
  | [] => false

/-- The `should_extract` decision of the `hoist` closure of
`_extract_exprs` (lines 302-308): a bare symbol is not extracted, and
outer-only mode rejects a nonempty dependency different from the first
expression dimension. -/
def shouldExtractB (ctx : LicmCtx) (node : AExpr) (dep : List Str) : Bool :=
  if isSym node then false
  else if ctx.outerOnly && !dep.isEmpty then
    if !ctx.dims.isEmpty && dep ≠ [ctx.dims.headI] then false else true
  else true

/-- The `hoist` closure of `_extract_exprs` (lines 302-311): record
`node` under `dep` when `should_extract` holds.  The source's
`self.extracted` flag is the accumulated non-emptiness of these records,
since `hoist` appends exactly when it sets the flag. -/
def hoistRec (ctx : LicmCtx) (node : AExpr) (dep : List Str) :
    List (List Str × AExpr) :=
  if shouldExtractB ctx node dep then [(dep, node)] else []

/-- The classification case split of `_extract_exprs` for a binary node
(lines 334-383), on the already-filtered dependencies `depL`/`depR` and
the accumulated records `recs` of the two children. -/
def extractBinCore (ctx : LicmCtx) (depL depR : List Str) (infoL infoR : HInfo)
    (recs : List (List Str × AExpr)) (left right whole : AExpr) :
    List Str × HInfo × List (List Str × AExpr) :=
  if infoL = .search ∧ infoR = .search then
    if depL ≠ depR then
      ([], .hoisted, recs ++ hoistRec ctx left depL ++ hoistRec ctx right depR)
    else (depL, .search, recs)
  else if (infoL = .search ∧ infoR = .invariant) ∨
          (infoL = .invariant ∧ infoR = .search) then
    ([], .hoisted, recs ++ hoistRec ctx left depL ++ hoistRec ctx right depR)
  else if infoL = .invariant ∧ infoR = .invariant then
    if depL = depR then (depL, .invariant, recs)
    else if depL ≠ [] ∧ depR = [] then
      (depL, .search, recs ++ hoistRec ctx right depR)
    else if depR ≠ [] ∧ depL = [] then
      (depR, .search, recs ++ hoistRec ctx left depL)
    else if depL.all (fun d => d ∈ depR) then (depR, .search, recs)
    else if depR.all (fun d => d ∈ depL) then (depL, .search, recs)
    else if ctx.nrankTmps then
      ([], .hoisted, recs ++ hoistRec ctx whole (depL ++ depR.filter (fun d => d ∉ depL)))
    else
      ([], .hoisted, recs ++ hoistRec ctx left depL ++ hoistRec ctx right depR)
  else
    if infoR = .invariant ∨ infoR = .search then
      ([], .hoisted, recs ++ hoistRec ctx right depR)
    else if infoL = .invariant ∨ infoL = .search then
      ([], .hoisted, recs ++ hoistRec ctx left depL)
    else ([], .hoisted, recs)

/-- `dep = tuple(d for d in dep if d in self.expr_info.dims)`
(lines 330-331). -/
def depFilter (ctx : LicmCtx) (dep : List Str) : List Str :=
  dep.filter (fun d => d ∈ ctx.dims)

/-- The binary-node combine of `_extract_exprs` (lines 324-383): filter
the children's dependencies against the expression dimensions, then the
classification case split, recording hoistable children. -/
def extractBin (ctx : LicmCtx) (resL resR : List Str × HInfo × List (List Str × AExpr))
    (left right whole : AExpr) : List Str × HInfo × List (List Str × AExpr) :=
  extractBinCore ctx (depFilter ctx resL.1) (depFilter ctx resR.1)
    resL.2.1 resR.2.1 (resL.2.2 ++ resR.2.2) left right whole

mutual
/-- `ExpressionHoister._extract_exprs` (lines 298-383).  Returns the
dependency tuple and classification of the node, together with the list
of recorded hoistable sub-expressions (`dep_subexprs`, flattened in
recording order).  A function-call argument's dependency union uses
`tuple(set(flatten(...)))` in the source; the unordered Python set is
determinized as first-occurrence deduplication. -/
def extract (ctx : LicmCtx) : AExpr → List Str × HInfo × List (List Str × AExpr)
  | .sym n r o => (ctx.symDep n r o, .invariant, [])
  | .funcall _ args =>
      let res := extractArgs ctx args
      let dep := dkf res.1.flatten
      let info := if res.2.1.all (fun i => i = HInfo.invariant) then HInfo.invariant
                  else HInfo.hoisted
      (dep, info, res.2.2)
  | .par e => extract ctx e
  | .neg _ => ([], .hoisted, [])
      -- the source has no `Neg` case and would fail unpacking two
      -- children; `Neg` never occurs in kernel-grammar statements (see
      -- `negFree`), so this value is arbitrary
  | .sum l r => extractBin ctx (extract ctx l) (extract ctx r) l r (.sum l r)
  | .sub l r => extractBin ctx (extract ctx l) (extract ctx r) l r (.sub l r)
  | .prod l r => extractBin ctx (extract ctx l) (extract ctx r) l r (.prod l r)
  | .div l r => extractBin ctx (extract ctx l) (extract ctx r) l r (.div l r)

def extractArgs (ctx : LicmCtx) :
    List AExpr → List (List Str) × List HInfo × List (List Str × AExpr)
  | [] => ([], [], [])
  | e :: es =>
      let r := extract ctx e
      let rs := extractArgs ctx es
      (r.1 :: rs.1, r.2.1 :: rs.2.1, r.2.2 ++ rs.2.2)
end

/-! ## Temporary names and placement -/

/-- `'_'.join(dep).upper() if dep else 'CONST'` — the `loop_dep` component
of the `_hoisted_sym` template (line 459), as its underscore-joined
component list. -/
def depComps (dep : List Str) : List Str :=
  match dep with
  | [] => ["CONST".data]
  | _ => dep.map (fun d => d.map Char.toUpper)

def hoistComps (dep : List Str) (exprId roundNo idx : Nat) : List Str :=
  depComps dep ++ [natStr exprId, natStr roundNo, natStr idx]

/-- `_hoisted_sym % {...}` — the template
`"%(loop_dep)s_%(expr_id)d_%(round)d_%(i)d"` (lines 274, 458-463). -/
def hoistName (dep : List Str) (exprId roundNo idx : Nat) : Str :=
  joinU (hoistComps dep exprId roundNo idx)

/-- Where a hoisted group is inserted. -/
inductive HPos where
  | beforeNest
  | topOfLoop (d : Str)
  | bottomOfLoop (d : Str)
deriving DecidableEq

/-- Size of the loop realizing dimension `d` in
`expr_info.loops_from_dims`.  The source indexes the ordered dict
directly (and would raise on a missing key); `0` stands for that
impossible case. -/
def dimSize (ctx : LicmCtx) (d : Str) : Nat :=
  match ctx.dimLoops.lookup d with
  | some n => n
  | none => 0

/-- The five-way placement dispatch of `ExpressionHoister.licm`
(lines 427-453), reduced to its observable content: where the hoisted
declarations and assignments are inserted (`place`/`next_loop`), and
which loops wrap the assignments (`wrap_loop`, as `(dim, size)` pairs).
An empty dependency goes before the whole nest as a scalar; a single
dimension with a perfect outermost loop goes before the nest wrapped in a
new loop over that dimension; a single dimension with several expression
dimensions goes to the top of the loop realizing it (insertion before
`od_find_next(expr_dims_loops, dep[0])`); a single dimension otherwise
goes to the bottom of that loop (insertion before its last statement);
two or more dimensions go to the top of the loop realizing the first,
wrapped in loops over the remaining dimensions. -/
def hoistPos (ctx : LicmCtx) (dep : List Str) : HPos × List (Str × Nat) :=
  match dep with
  | [] => (.beforeNest, [])
  | [d] =>
      if ctx.outPerfect then (.beforeNest, [(d, dimSize ctx d)])
      else if ctx.dimLoops.length > 1 then (.topOfLoop d, [])
      else (.bottomOfLoop d, [])
  | d :: rest => (.topOfLoop d, rest.map (fun r => (r, dimSize ctx r)))

/-- A hoisted temporary: its generated name and name components, the
extracted sub-expression `sub` and its `Par`-wrapped defining expression
`defn` (line 468), the rank of its occurrences (`loop_dim`) and of its
declaration (`loop_size`, line 456-457), its placement, and the
multiply-referenced flag passed to the expression graph (line 485). -/
structure Binding where
  name : Str
  dep : List Str
  roundNo : Nat
  idx : Nat
  sub : AExpr
  defn : AExpr
  occRank : List Str
  declRank : List Nat
  pos : HPos
  wrap : List (Str × Nat)
  multiple : Bool
deriving DecidableEq

/-- `dict([(str(e), e) for e in subexprs]).values()` (line 422):
deduplicate by printed form; keys keep first-appearance order, each key
keeping the last expression printed that way. -/
def dedupRender (es : List AExpr) : List AExpr :=
  (dkf (es.map render)).map (fun k =>
    match es.reverse.find? (fun e => render e = k) with
    | some e => e
    | none => default)

/-- The bindings created for one dependency group of one extraction round
(`licm` lines 428-465): one temporary per deduplicated sub-expression,
indexed consecutively. -/
def groupBindings (ctx : LicmCtx) (exprId roundNo : Nat) (dep : List Str)
    (subexprs : List AExpr) : List Binding :=
  let pw := hoistPos ctx dep
  subexprs.enum.map (fun p =>
    { name := hoistName dep exprId roundNo p.1
      dep := dep
      roundNo := roundNo
      idx := p.1
      sub := p.2
      defn := if isPar p.2 then p.2 else .par p.2
      occRank := pw.2.map Prod.fst
      declRank := pw.2.map Prod.snd
      pos := pw.1
      wrap := pw.2
      multiple := false })

/-- The sub-expressions of one dependency group, deduplicated by printed
form (lines 419-422). -/
def groupSubexprs (recorded : List (List Str × AExpr)) (dep : List Str) :
    List AExpr :=
  dedupRender ((recorded.filter (fun p => p.1 = dep)).map Prod.snd)

/-- `to_replace = dict(zip(subexprs, inv_loop_syms))` (line 478): the
replacement map of one group, from sub-expression to temporary symbol. -/
def groupPairs (ctx : LicmCtx) (exprId roundNo : Nat) (dep : List Str)
    (subexprs : List AExpr) : List (AExpr × AExpr) :=
  subexprs.zip ((groupBindings ctx exprId roundNo dep subexprs).map
    (fun b => AExpr.sym b.name b.occRank none))

/-- Processing of one dependency group within a round (licm steps 1-5,
lines 428-496): create the temporaries of the group, replace the group's
sub-expressions by the temporary symbols in the statement, and record the
multiply-referenced flag. -/
def roundStep (ctx : LicmCtx) (exprId roundNo : Nat)
    (recorded : List (List Str × AExpr)) (acc : AExpr × List Binding)
    (dep : List Str) : AExpr × List Binding :=
  (replaceA (groupPairs ctx exprId roundNo dep (groupSubexprs recorded dep)) acc.1,
   acc.2 ++ (groupBindings ctx exprId roundNo dep (groupSubexprs recorded dep)).map
     (fun b => { b with
       multiple :=
         countName b.name (replaceA (groupPairs ctx exprId roundNo dep (groupSubexprs recorded dep)) acc.1) > 1 }))

/-- One iteration of the `while True` extraction loop of
`ExpressionHoister.licm` (lines 408-496): run `_extract_exprs`; if
anything was recorded, process each dependency group (groups in recording
order, as `defaultdict` key order); `counter` is `self.counter` before
the round, so names use `counter + 1` (line 417). -/
def licmRound (ctx : LicmCtx) (exprId counter : Nat) (e : AExpr) :
    AExpr × List Binding × Bool :=
  let recorded := (extract ctx e).2.2
  if recorded.isEmpty then (e, [], false)
  else
    let out := (dkf (recorded.map Prod.fst)).foldl
      (roundStep ctx exprId (counter + 1) recorded) (e, [])
    (out.1, out.2, true)

/-- The full `while True` loop with explicit fuel; the last component is
`true` when the loop exited through its fixpoint test (`if not
self.extracted: break`, line 413) rather than by exhausting the fuel.
The third component counts extracting rounds. -/
def licmLoop (ctx : LicmCtx) (exprId : Nat) :
    Nat → Nat → AExpr → AExpr × List Binding × Nat × Bool
  | 0, _, e => (e, [], 0, false)
  | fuel + 1, counter, e =>
      let r := licmRound ctx exprId counter e
      if r.2.2 then
        let r' := licmLoop ctx exprId fuel (counter + 1) r.1
        (r'.1, r.2.1 ++ r'.2.1, r'.2.2.1 + 1, r'.2.2.2)
      else (e, [], 0, true)

/-- `_check_loops` (lines 385-389): all loops of the nest except the
outermost must be perfect. -/
def checkLoops (loops : List Stmt) : Bool :=
  loops.tail.all isPerfectLoop

/-- `ExpressionHoister.licm` (lines 391-512) acting on the expression:
the perfect-nest guard, then the fixpoint loop (fuel `sizeA e + 1`
provably suffices, see the termination theorem; the source loop is an
unbounded `while True`). -/
def licmRun (ctx : LicmCtx) (exprId counter : Nat) (e : AExpr) :
    AExpr × List Binding × Nat × Bool :=
  if checkLoops ctx.loops then licmLoop ctx exprId (sizeA e + 1) counter e
  else (e, [], 0, true)

/-- The bookkeeping state shared by the rewriting components: the
statement's right-hand side, the declaration map, the hoist tracker and
the dependency graph. -/
structure HoistState where
  rhs : AExpr
  decls : List (Str × List Nat)
  hoisted : List (Str × Binding)
  graph : List (Str × AExpr × Bool)
deriving DecidableEq

/-- `ExpressionHoister.licm` including its bookkeeping effects (the
declaration update of step 3, line 472-475; the hoist tracker update of
step 5, line 481-483; and the dependency-graph edges, line 484-485),
derived from the produced bindings.  When the `_check_loops` guard fails
the call warns and returns with the state untouched (lines 393-395). -/
def licmFull (ctx : LicmCtx) (exprId counter : Nat) (st : HoistState) : HoistState :=
  if checkLoops ctx.loops then
    let r := licmLoop ctx exprId (sizeA st.rhs + 1) counter st.rhs
    { rhs := r.1
      decls := st.decls ++ r.2.1.map (fun b => (b.name, b.declRank))
      hoisted := st.hoisted ++ r.2.1.map (fun b => (b.name, b))
      graph := st.graph ++ r.2.1.map (fun b => (b.name, b.sub, b.multiple)) }
  else st

/-! ## Termination of the extraction loop

Every recorded sub-expression is a non-symbol subtree of the traversed
expression, so replacing it by a temporary symbol strictly shrinks the
tree; the fixpoint loop therefore needs at most `sizeA e` rounds. -/

theorem occursIn_self (e : AExpr) : occursIn e e = true := by
  cases e <;> simp [occursIn]

theorem shouldExtract_not_sym {ctx : LicmCtx} {node : AExpr} {dep : List Str}
    (h : shouldExtractB ctx node dep = true) : isSym node = false := by
  cases hn : isSym node
  · rfl
  · unfold shouldExtractB at h
    rw [hn] at h
    simp at h

theorem hoistRec_mem {ctx : LicmCtx} {node : AExpr} {dep : List Str}
    {p : List Str × AExpr} (h : p ∈ hoistRec ctx node dep) :
    p.2 = node ∧ isSym p.2 = false := by
  unfold hoistRec at h
  split_ifs at h with hs
  · rcases List.mem_singleton.mp h with rfl
    exact ⟨rfl, shouldExtract_not_sym hs⟩
  · simp at h

theorem mem_append3 {α : Type} {A B C : List α} {p : α} (h : p ∈ A ++ B ++ C) :
    p ∈ A ∨ p ∈ B ∨ p ∈ C := by
  rcases List.mem_append.mp h with h' | h'
  · rcases List.mem_append.mp h' with h'' | h''
    · exact Or.inl h''
    · exact Or.inr (Or.inl h'')
  · exact Or.inr (Or.inr h')

theorem extractBinCore_mem {ctx : LicmCtx} {depL depR : List Str}
    {infoL infoR : HInfo} {recs : List (List Str × AExpr)}
    {l r w : AExpr} {p : List Str × AExpr}
    (h : p ∈ (extractBinCore ctx depL depR infoL infoR recs l r w).2.2) :
    p ∈ recs ∨ ((p.2 = l ∨ p.2 = r ∨ p.2 = w) ∧ isSym p.2 = false) := by
  unfold extractBinCore at h
  split_ifs at h <;>
    first
      | exact Or.inl h
      | (rcases mem_append3 h with h | h | h <;>
         first
           | exact Or.inl h
           | exact Or.inr ⟨Or.inl (hoistRec_mem h).1, (hoistRec_mem h).2⟩
           | exact Or.inr ⟨Or.inr (Or.inl (hoistRec_mem h).1), (hoistRec_mem h).2⟩)
      | (rcases List.mem_append.mp h with h | h <;>
         first
           | exact Or.inl h
           | exact Or.inr ⟨Or.inl (hoistRec_mem h).1, (hoistRec_mem h).2⟩
           | exact Or.inr ⟨Or.inr (Or.inl (hoistRec_mem h).1), (hoistRec_mem h).2⟩
           | exact Or.inr ⟨Or.inr (Or.inr (hoistRec_mem h).1), (hoistRec_mem h).2⟩)

theorem extractBin_mem {ctx : LicmCtx}
    {rl rr : List Str × HInfo × List (List Str × AExpr)}
    {l r w : AExpr} {p : List Str × AExpr}
    (h : p ∈ (extractBin ctx rl rr l r w).2.2) :
    p ∈ rl.2.2 ∨ p ∈ rr.2.2 ∨
      ((p.2 = l ∨ p.2 = r ∨ p.2 = w) ∧ isSym p.2 = false) := by
  unfold extractBin at h
  rcases extractBinCore_mem h with h' | h'
  · rcases List.mem_append.mp h' with h'' | h''
    · exact Or.inl h''
    · exact Or.inr (Or.inl h'')
  · exact Or.inr (Or.inr h')

mutual
theorem extract_rec_occurs : ∀ (ctx : LicmCtx) (e : AExpr)
    (p : List Str × AExpr), p ∈ (extract ctx e).2.2 →
    occursIn p.2 e = true ∧ isSym p.2 = false
  | ctx, .sym n r o, p => by intro h; simp [extract] at h
  | ctx, .par e, p => by
      intro h
      simp only [extract] at h
      obtain ⟨ho, hs⟩ := extract_rec_occurs ctx e p h
      exact ⟨by simp [occursIn, ho], hs⟩
  | ctx, .neg e, p => by intro h; simp [extract] at h
  | ctx, .funcall f args, p => by
      intro h
      simp only [extract] at h
      obtain ⟨ho, hs⟩ := extractArgs_rec_occurs ctx args p h
      exact ⟨by simp [occursIn, ho], hs⟩
  | ctx, .sum l r, p => by
      intro h
      simp only [extract] at h
      rcases extractBin_mem h with h' | h' | ⟨h', hs⟩
      · obtain ⟨ho, hs⟩ := extract_rec_occurs ctx l p h'
        exact ⟨by simp [occursIn, ho], hs⟩
      · obtain ⟨ho, hs⟩ := extract_rec_occurs ctx r p h'
        exact ⟨by simp [occursIn, ho], hs⟩
      · rcases h' with h' | h' | h' <;> rw [h'] <;>
          exact ⟨by simp [occursIn, occursIn_self], h' ▸ hs⟩
  | ctx, .sub l r, p => by
      intro h
      simp only [extract] at h
      rcases extractBin_mem h with h' | h' | ⟨h', hs⟩
      · obtain ⟨ho, hs⟩ := extract_rec_occurs ctx l p h'
        exact ⟨by simp [occursIn, ho], hs⟩
      · obtain ⟨ho, hs⟩ := extract_rec_occurs ctx r p h'
        exact ⟨by simp [occursIn, ho], hs⟩
      · rcases h' with h' | h' | h' <;> rw [h'] <;>
          exact ⟨by simp [occursIn, occursIn_self], h' ▸ hs⟩
  | ctx, .prod l r, p => by
      intro h
      simp only [extract] at h
      rcases extractBin_mem h with h' | h' | ⟨h', hs⟩
      · obtain ⟨ho, hs⟩ := extract_rec_occurs ctx l p h'
        exact ⟨by simp [occursIn, ho], hs⟩
      · obtain ⟨ho, hs⟩ := extract_rec_occurs ctx r p h'
        exact ⟨by simp [occursIn, ho], hs⟩
      · rcases h' with h' | h' | h' <;> rw [h'] <;>
          exact ⟨by simp [occursIn, occursIn_self], h' ▸ hs⟩
  | ctx, .div l r, p => by
      intro h
      simp only [extract] at h
      rcases extractBin_mem h with h' | h' | ⟨h', hs⟩
      · obtain ⟨ho, hs⟩ := extract_rec_occurs ctx l p h'
        exact ⟨by simp [occursIn, ho], hs⟩
      · obtain ⟨ho, hs⟩ := extract_rec_occurs ctx r p h'
        exact ⟨by simp [occursIn, ho], hs⟩
      · rcases h' with h' | h' | h' <;> rw [h'] <;>
          exact ⟨by simp [occursIn, occursIn_self], h' ▸ hs⟩

theorem extractArgs_rec_occurs : ∀ (ctx : LicmCtx) (es : List AExpr)
    (p : List Str × AExpr), p ∈ (extractArgs ctx es).2.2 →
    occursInL p.2 es = true ∧ isSym p.2 = false
  | ctx, [], p => by intro h; simp [extractArgs] at h
  | ctx, e :: es, p => by
      intro h
      simp only [extractArgs, List.mem_append] at h
      rcases h with h | h
      · obtain ⟨ho, hs⟩ := extract_rec_occurs ctx e p h
        exact ⟨by simp [occursInL, ho], hs⟩
      · obtain ⟨ho, hs⟩ := extractArgs_rec_occurs ctx es p h
        exact ⟨by simp [occursInL, ho], hs⟩
end

theorem lookupA_mem : ∀ {m : List (AExpr × AExpr)} {e v : AExpr},
    lookupA m e = some v → ∃ kv ∈ m, kv.1 = e ∧ kv.2 = v := by
  intro m
  induction m with
  | nil => intro e v h; simp [lookupA] at h
  | cons kv m ih =>
      intro e v h
      by_cases he : kv.1 = e
      · simp only [lookupA, he, if_true] at h
        exact ⟨kv, List.mem_cons_self _ _, he, Option.some.inj h⟩
      · simp only [lookupA, he, if_false] at h
        obtain ⟨kv', hm, h1, h2⟩ := ih h
        exact ⟨kv', List.mem_cons_of_mem _ hm, h1, h2⟩

theorem lookupA_isSome_of_mem : ∀ {m : List (AExpr × AExpr)} {kv : AExpr × AExpr},
    kv ∈ m → (lookupA m kv.1).isSome = true := by
  intro m
  induction m with
  | nil => intro kv h; simp at h
  | cons kv' m ih =>
      intro kv h
      rcases List.mem_cons.mp h with he | hm
      · subst he; simp [lookupA]
      · by_cases he : kv'.1 = kv.1
        · simp [lookupA, he]
        · simp only [lookupA, he, if_false]
          exact ih hm

theorem lookupA_ne_none_of_key {m : List (AExpr × AExpr)} {k : AExpr}
    (h : ∃ kv ∈ m, kv.1 = k) : lookupA m k ≠ none := by
  obtain ⟨kv, hm, hk⟩ := h
  have hs := lookupA_isSome_of_mem hm
  rw [hk] at hs
  intro he
  rw [he] at hs
  simp at hs

theorem nsize_of_sym {v : AExpr} (h : isSym v = true) : nsize v = 0 := by
  cases v <;> first | rfl | simp [isSym] at h

theorem nsize_pos_of_not_sym {e : AExpr} (h : isSym e = false) : 1 ≤ nsize e := by
  cases e with
  | sym n r o => simp [isSym] at h
  | par e => simp only [nsize]; omega
  | sum l r => simp only [nsize]; omega
  | sub l r => simp only [nsize]; omega
  | prod l r => simp only [nsize]; omega
  | div l r => simp only [nsize]; omega
  | neg e => simp only [nsize]; omega
  | funcall f args => simp only [nsize]; omega

mutual
theorem replaceA_nsize_le : ∀ (m : List (AExpr × AExpr)) (e : AExpr),
    (∀ kv ∈ m, isSym kv.2 = true) → nsize (replaceA m e) ≤ nsize e
  | m, .sym n r o => by
      intro hv
      rcases hl : lookupA m (.sym n r o) with _ | v
      · simp [replaceA, hl]
      · obtain ⟨kv, hm, _, h2⟩ := lookupA_mem hl
        have h1 : nsize v = 0 := nsize_of_sym (h2 ▸ hv kv hm)
        simp only [replaceA, hl, h1]
        omega
  | m, .par e => by
      intro hv
      rcases hl : lookupA m (.par e) with _ | v
      · simp only [replaceA, hl]
        have := replaceA_nsize_le m e hv
        simp only [nsize]; omega
      · obtain ⟨kv, hm, _, h2⟩ := lookupA_mem hl
        have h1 : nsize v = 0 := nsize_of_sym (h2 ▸ hv kv hm)
        simp only [replaceA, hl, h1, nsize]; omega
  | m, .sum l r => by
      intro hv
      rcases hl : lookupA m (.sum l r) with _ | v
      · simp only [replaceA, hl]
        have h1 := replaceA_nsize_le m l hv
        have h2 := replaceA_nsize_le m r hv
        simp only [nsize]; omega
      · obtain ⟨kv, hm, _, h2⟩ := lookupA_mem hl
        have h1 : nsize v = 0 := nsize_of_sym (h2 ▸ hv kv hm)
        simp only [replaceA, hl, h1, nsize]; omega
  | m, .sub l r => by
      intro hv
      rcases hl : lookupA m (.sub l r) with _ | v
      · simp only [replaceA, hl]
        have h1 := replaceA_nsize_le m l hv
        have h2 := replaceA_nsize_le m r hv
        simp only [nsize]; omega
      · obtain ⟨kv, hm, _, h2⟩ := lookupA_mem hl
        have h1 : nsize v = 0 := nsize_of_sym (h2 ▸ hv kv hm)
        simp only [replaceA, hl, h1, nsize]; omega
  | m, .prod l r => by
      intro hv
      rcases hl : lookupA m (.prod l r) with _ | v
      · simp only [replaceA, hl]
        have h1 := replaceA_nsize_le m l hv
        have h2 := replaceA_nsize_le m r hv
        simp only [nsize]; omega
      · obtain ⟨kv, hm, _, h2⟩ := lookupA_mem hl
        have h1 : nsize v = 0 := nsize_of_sym (h2 ▸ hv kv hm)
        simp only [replaceA, hl, h1, nsize]; omega
  | m, .div l r => by
      intro hv
      rcases hl : lookupA m (.div l r) with _ | v
      · simp only [replaceA, hl]
        have h1 := replaceA_nsize_le m l hv
        have h2 := replaceA_nsize_le m r hv
        simp only [nsize]; omega
      · obtain ⟨kv, hm, _, h2⟩ := lookupA_mem hl
        have h1 : nsize v = 0 := nsize_of_sym (h2 ▸ hv kv hm)
        simp only [replaceA, hl, h1, nsize]; omega
  | m, .neg e => by
      intro hv
      rcases hl : lookupA m (.neg e) with _ | v
      · simp only [replaceA, hl]
        have := replaceA_nsize_le m e hv
        simp only [nsize]; omega
      · obtain ⟨kv, hm, _, h2⟩ := lookupA_mem hl
        have h1 : nsize v = 0 := nsize_of_sym (h2 ▸ hv kv hm)
        simp only [replaceA, hl, h1, nsize]; omega
  | m, .funcall f args => by
      intro hv
      rcases hl : lookupA m (.funcall f args) with _ | v
      · simp only [replaceA, hl]
        have := replaceAL_nsize_le m args hv
        simp only [nsize]; omega
      · obtain ⟨kv, hm, _, h2⟩ := lookupA_mem hl
        have h1 : nsize v = 0 := nsize_of_sym (h2 ▸ hv kv hm)
        simp only [replaceA, hl, h1, nsize]; omega

theorem replaceAL_nsize_le : ∀ (m : List (AExpr × AExpr)) (es : List AExpr),
    (∀ kv ∈ m, isSym kv.2 = true) → nsizeL (replaceAL m es) ≤ nsizeL es
  | m, [] => by intro; simp [replaceAL]
  | m, e :: es => by
      intro hv
      have h1 := replaceA_nsize_le m e hv
      have h2 := replaceAL_nsize_le m es hv
      simp only [replaceAL, nsizeL]; omega
end

mutual
theorem replaceA_nsize_lt : ∀ (m : List (AExpr × AExpr)) (e k : AExpr),
    (∀ kv ∈ m, isSym kv.2 = true) → (∃ kv ∈ m, kv.1 = k) →
    isSym k = false → occursIn k e = true →
    nsize (replaceA m e) < nsize e
  | m, .sym n r o, k => by
      intro hv hkm hks ho
      simp only [occursIn] at ho
      have : AExpr.sym n r o = k := by simpa using ho
      rw [← this] at hks
      simp [isSym] at hks
  | m, .par e, k => by
      intro hv hkm hks ho
      rcases hl : lookupA m (.par e) with _ | v
      · simp only [replaceA, hl]
        simp only [occursIn, Bool.or_eq_true] at ho
        rcases ho with ho | ho
        · exfalso
          have he : AExpr.par e = k := by simpa using ho
          exact lookupA_ne_none_of_key hkm (he ▸ hl)
        · have := replaceA_nsize_lt m e k hv hkm hks ho
          simp only [nsize]; omega
      · obtain ⟨kv, hm, _, h2⟩ := lookupA_mem hl
        have h1 : nsize v = 0 := nsize_of_sym (h2 ▸ hv kv hm)
        simp only [replaceA, hl, h1, nsize]; omega
  | m, .sum l r, k => by
      intro hv hkm hks ho
      rcases hl : lookupA m (.sum l r) with _ | v
      · simp only [replaceA, hl]
        simp only [occursIn, Bool.or_eq_true] at ho
        rcases ho with (ho | ho) | ho
        · exfalso
          have he : AExpr.sum l r = k := by simpa using ho
          exact lookupA_ne_none_of_key hkm (he ▸ hl)
        · have h1 := replaceA_nsize_lt m l k hv hkm hks ho
          have h2 := replaceA_nsize_le m r hv
          simp only [nsize]; omega
        · have h1 := replaceA_nsize_le m l hv
          have h2 := replaceA_nsize_lt m r k hv hkm hks ho
          simp only [nsize]; omega
      · obtain ⟨kv, hm, _, h2⟩ := lookupA_mem hl
        have h1 : nsize v = 0 := nsize_of_sym (h2 ▸ hv kv hm)
        simp only [replaceA, hl, h1, nsize]; omega
  | m, .sub l r, k => by
      intro hv hkm hks ho
      rcases hl : lookupA m (.sub l r) with _ | v
      · simp only [replaceA, hl]
        simp only [occursIn, Bool.or_eq_true] at ho
        rcases ho with (ho | ho) | ho
        · exfalso
          have he : AExpr.sub l r = k := by simpa using ho
          exact lookupA_ne_none_of_key hkm (he ▸ hl)
        · have h1 := replaceA_nsize_lt m l k hv hkm hks ho
          have h2 := replaceA_nsize_le m r hv
          simp only [nsize]; omega
        · have h1 := replaceA_nsize_le m l hv
          have h2 := replaceA_nsize_lt m r k hv hkm hks ho
          simp only [nsize]; omega
      · obtain ⟨kv, hm, _, h2⟩ := lookupA_mem hl
        have h1 : nsize v = 0 := nsize_of_sym (h2 ▸ hv kv hm)
        simp only [replaceA, hl, h1, nsize]; omega
  | m, .prod l r, k => by
      intro hv hkm hks ho
      rcases hl : lookupA m (.prod l r) with _ | v
      · simp only [replaceA, hl]
        simp only [occursIn, Bool.or_eq_true] at ho
        rcases ho with (ho | ho) | ho
        · exfalso
          have he : AExpr.prod l r = k := by simpa using ho
          exact lookupA_ne_none_of_key hkm (he ▸ hl)
        · have h1 := replaceA_nsize_lt m l k hv hkm hks ho
          have h2 := replaceA_nsize_le m r hv
          simp only [nsize]; omega
        · have h1 := replaceA_nsize_le m l hv
          have h2 := replaceA_nsize_lt m r k hv hkm hks ho
          simp only [nsize]; omega
      · obtain ⟨kv, hm, _, h2⟩ := lookupA_mem hl
        have h1 : nsize v = 0 := nsize_of_sym (h2 ▸ hv kv hm)
        simp only [replaceA, hl, h1, nsize]; omega
  | m, .div l r, k => by
      intro hv hkm hks ho
      rcases hl : lookupA m (.div l r) with _ | v
      · simp only [replaceA, hl]
        simp only [occursIn, Bool.or_eq_true] at ho
        rcases ho with (ho | ho) | ho
        · exfalso
          have he : AExpr.div l r = k := by simpa using ho
          exact lookupA_ne_none_of_key hkm (he ▸ hl)
        · have h1 := replaceA_nsize_lt m l k hv hkm hks ho
          have h2 := replaceA_nsize_le m r hv
          simp only [nsize]; omega
        · have h1 := replaceA_nsize_le m l hv
          have h2 := replaceA_nsize_lt m r k hv hkm hks ho
          simp only [nsize]; omega
      · obtain ⟨kv, hm, _, h2⟩ := lookupA_mem hl
        have h1 : nsize v = 0 := nsize_of_sym (h2 ▸ hv kv hm)
        simp only [replaceA, hl, h1, nsize]; omega
  | m, .neg e, k => by
      intro hv hkm hks ho
      rcases hl : lookupA m (.neg e) with _ | v
      · simp only [replaceA, hl]
        simp only [occursIn, Bool.or_eq_true] at ho
        rcases ho with ho | ho
        · exfalso
          have he : AExpr.neg e = k := by simpa using ho
          exact lookupA_ne_none_of_key hkm (he ▸ hl)
        · have := replaceA_nsize_lt m e k hv hkm hks ho
          simp only [nsize]; omega
      · obtain ⟨kv, hm, _, h2⟩ := lookupA_mem hl
        have h1 : nsize v = 0 := nsize_of_sym (h2 ▸ hv kv hm)
        simp only [replaceA, hl, h1, nsize]; omega
  | m, .funcall f args, k => by
      intro hv hkm hks ho
      rcases hl : lookupA m (.funcall f args) with _ | v
      · simp only [replaceA, hl]
        simp only [occursIn, Bool.or_eq_true] at ho
        rcases ho with ho | ho
        · exfalso
          have he : AExpr.funcall f args = k := by simpa using ho
          exact lookupA_ne_none_of_key hkm (he ▸ hl)
        · have := replaceAL_nsize_lt m args k hv hkm hks ho
          simp only [nsize]; omega
      · obtain ⟨kv, hm, _, h2⟩ := lookupA_mem hl
        have h1 : nsize v = 0 := nsize_of_sym (h2 ▸ hv kv hm)
        simp only [replaceA, hl, h1, nsize]; omega

theorem replaceAL_nsize_lt : ∀ (m : List (AExpr × AExpr)) (es : List AExpr) (k : AExpr),
    (∀ kv ∈ m, isSym kv.2 = true) → (∃ kv ∈ m, kv.1 = k) →
    isSym k = false → occursInL k es = true →
    nsizeL (replaceAL m es) < nsizeL es
  | m, [], k => by
      intro _ _ _ ho
      simp [occursInL] at ho
  | m, e :: es, k => by
      intro hv hkm hks ho
      simp only [occursInL, Bool.or_eq_true] at ho
      rcases ho with ho | ho
      · have h1 := replaceA_nsize_lt m e k hv hkm hks ho
        have h2 := replaceAL_nsize_le m es hv
        simp only [replaceAL, nsizeL]; omega
      · have h1 := replaceA_nsize_le m e hv
        have h2 := replaceAL_nsize_lt m es k hv hkm hks ho
        simp only [replaceAL, nsizeL]; omega
end

theorem dkf_cons {α : Type} [DecidableEq α] (x : α) (xs : List α) :
    dkf (x :: xs) = x :: dkfAux [x] xs := by
  simp [dkf, dkfAux]

theorem dedupRender_mem {es : List AExpr} {x : AExpr}
    (hx : x ∈ dedupRender es) : x ∈ es := by
  simp only [dedupRender, List.mem_map] at hx
  obtain ⟨k, hk, he⟩ := hx
  have hk' : k ∈ es.map render := (dkfAux_sublist _ _).subset hk
  obtain ⟨e', he', hr⟩ := List.mem_map.mp hk'
  rcases hfo : es.reverse.find? (fun e => render e = k) with _ | e0
  · exfalso
    have hmem : e' ∈ es.reverse := List.mem_reverse.mpr he'
    have := List.find?_eq_none.mp hfo e' hmem
    simp [hr] at this
  · rw [hfo] at he
    have h0 : e0 ∈ es.reverse := List.mem_of_find?_eq_some hfo
    have he0 : e0 = x := by simpa using he
    rw [← he0]
    exact List.mem_reverse.mp h0

theorem dedupRender_ne_nil {es : List AExpr} (h : es ≠ []) :
    dedupRender es ≠ [] := by
  cases es with
  | nil => exact absurd rfl h
  | cons e es => simp [dedupRender, dkf, dkfAux]

theorem groupSubexprs_ne_nil {recorded : List (List Str × AExpr)}
    {dep : List Str} (h : ∃ p ∈ recorded, p.1 = dep) :
    groupSubexprs recorded dep ≠ [] := by
  apply dedupRender_ne_nil
  obtain ⟨p, hm, he⟩ := h
  have hp : p ∈ recorded.filter (fun q => q.1 = dep) := by
    simp [List.mem_filter, hm, he]
  intro hnil
  rw [List.map_eq_nil_iff] at hnil
  rw [hnil] at hp
  simp at hp

theorem groupSubexprs_mem {recorded : List (List Str × AExpr)}
    {dep : List Str} {x : AExpr} (hx : x ∈ groupSubexprs recorded dep) :
    ∃ p ∈ recorded, p.2 = x := by
  have := dedupRender_mem hx
  obtain ⟨p, hp, he⟩ := List.mem_map.mp this
  exact ⟨p, (List.mem_filter.mp hp).1, he⟩

theorem groupPairs_snd_sym {ctx : LicmCtx} {exprId roundNo : Nat}
    {dep : List Str} {subexprs : List AExpr} :
    ∀ kv ∈ groupPairs ctx exprId roundNo dep subexprs, isSym kv.2 = true := by
  intro kv hkv
  obtain ⟨a, b⟩ := kv
  have h2 := (List.of_mem_zip hkv).2
  obtain ⟨b', _, hb⟩ := List.mem_map.mp h2
  rw [← hb]
  rfl

theorem groupPairs_fst_mem {ctx : LicmCtx} {exprId roundNo : Nat}
    {dep : List Str} {subexprs : List AExpr} :
    ∀ kv ∈ groupPairs ctx exprId roundNo dep subexprs, kv.1 ∈ subexprs := by
  intro kv hkv
  obtain ⟨a, b⟩ := kv
  exact (List.of_mem_zip hkv).1

theorem groupBindings_length (ctx : LicmCtx) (exprId roundNo : Nat)
    (dep : List Str) (subexprs : List AExpr) :
    (groupBindings ctx exprId roundNo dep subexprs).length = subexprs.length := by
  simp [groupBindings]

theorem groupPairs_ne_nil {ctx : LicmCtx} {exprId roundNo : Nat}
    {dep : List Str} {subexprs : List AExpr} (h : subexprs ≠ []) :
    groupPairs ctx exprId roundNo dep subexprs ≠ [] := by
  apply List.ne_nil_of_length_pos
  have hlen : (groupPairs ctx exprId roundNo dep subexprs).length = subexprs.length := by
    simp [groupPairs, groupBindings_length]
  rw [hlen]
  exact List.length_pos.mpr h

theorem roundStep_nsize_le (ctx : LicmCtx) (exprId roundNo : Nat)
    (recorded : List (List Str × AExpr)) (acc : AExpr × List Binding)
    (dep : List Str) :
    nsize (roundStep ctx exprId roundNo recorded acc dep).1 ≤ nsize acc.1 :=
  replaceA_nsize_le _ acc.1 groupPairs_snd_sym

theorem roundStep_nsize_lt {ctx : LicmCtx} {exprId roundNo : Nat}
    {recorded : List (List Str × AExpr)} {acc : AExpr × List Binding}
    {dep : List Str}
    (hne : groupSubexprs recorded dep ≠ [])
    (hocc : ∀ s ∈ groupSubexprs recorded dep,
      occursIn s acc.1 = true ∧ isSym s = false) :
    nsize (roundStep ctx exprId roundNo recorded acc dep).1 < nsize acc.1 := by
  obtain ⟨kv, hkv⟩ := List.exists_mem_of_ne_nil _
    (@groupPairs_ne_nil ctx exprId roundNo dep _ hne)
  have h1 := groupPairs_fst_mem kv hkv
  obtain ⟨ho, hs⟩ := hocc kv.1 h1
  exact replaceA_nsize_lt _ acc.1 kv.1 groupPairs_snd_sym ⟨kv, hkv, rfl⟩ hs ho

theorem foldl_roundStep_nsize_le (ctx : LicmCtx) (exprId roundNo : Nat)
    (recorded : List (List Str × AExpr)) :
    ∀ (keys : List (List Str)) (acc : AExpr × List Binding),
    nsize ((keys.foldl (roundStep ctx exprId roundNo recorded) acc).1) ≤ nsize acc.1 := by
  intro keys
  induction keys with
  | nil => intro acc; simp
  | cons k ks ih =>
      intro acc
      simp only [List.foldl_cons]
      exact le_trans (ih _) (roundStep_nsize_le ctx exprId roundNo recorded acc k)

theorem licmRound_flag (ctx : LicmCtx) (exprId counter : Nat) (e : AExpr) :
    (licmRound ctx exprId counter e).2.2 = !(extract ctx e).2.2.isEmpty := by
  by_cases h : (extract ctx e).2.2.isEmpty <;> simp [licmRound, h]

theorem licmRound_not_extr {ctx : LicmCtx} {exprId counter : Nat} {e : AExpr}
    (h : (licmRound ctx exprId counter e).2.2 = false) :
    licmRound ctx exprId counter e = (e, [], false) := by
  by_cases hh : (extract ctx e).2.2.isEmpty
  · simp [licmRound, hh]
  · simp [licmRound, hh] at h

theorem licmRound_nsize_lt {ctx : LicmCtx} {exprId counter : Nat} {e : AExpr}
    (h : (licmRound ctx exprId counter e).2.2 = true) :
    nsize (licmRound ctx exprId counter e).1 < nsize e := by
  by_cases hh : (extract ctx e).2.2.isEmpty
  · simp [licmRound, hh] at h
  · have hnil : (extract ctx e).2.2 ≠ [] := by
      intro hn; rw [hn] at hh; simp at hh
    rcases hrec : (extract ctx e).2.2 with _ | ⟨p0, rest⟩
    · exact absurd hrec hnil
    · have hresult : (licmRound ctx exprId counter e).1 =
          ((dkf ((p0 :: rest).map Prod.fst)).foldl
            (roundStep ctx exprId (counter + 1) (p0 :: rest)) (e, [])).1 := by
        simp [licmRound, hrec]
      rw [hresult, List.map_cons, dkf_cons, List.foldl_cons]
      have hkey : ∃ p ∈ (p0 :: rest), p.1 = p0.1 :=
        ⟨p0, List.mem_cons_self _ _, rfl⟩
      have hne : groupSubexprs (p0 :: rest) p0.1 ≠ [] :=
        groupSubexprs_ne_nil hkey
      have hocc : ∀ s ∈ groupSubexprs (p0 :: rest) p0.1,
          occursIn s e = true ∧ isSym s = false := by
        intro s hsm
        obtain ⟨q, hq, hqe⟩ := groupSubexprs_mem hsm
        have hq' : q ∈ (extract ctx e).2.2 := hrec ▸ hq
        have := extract_rec_occurs ctx e q hq'
        rw [hqe] at this
        exact this
      exact lt_of_le_of_lt
        (foldl_roundStep_nsize_le ctx exprId (counter + 1) (p0 :: rest)
          (dkfAux [p0.1] (rest.map Prod.fst))
          (roundStep ctx exprId (counter + 1) (p0 :: rest) (e, []) p0.1))
        (roundStep_nsize_lt hne hocc)

theorem licmLoop_finishes (ctx : LicmCtx) (exprId : Nat) :
    ∀ (fuel counter : Nat) (e : AExpr), nsize e < fuel →
    (licmLoop ctx exprId fuel counter e).2.2.2 = true ∧
    (licmLoop ctx exprId fuel counter e).2.2.1 ≤ nsize e := by
  intro fuel
  induction fuel with
  | zero => intro c e h; omega
  | succ f ih =>
      intro c e h
      by_cases hx : (licmRound ctx exprId c e).2.2 = true
      · have hlt := licmRound_nsize_lt hx
        have hih := ih (c + 1) (licmRound ctx exprId c e).1 (by omega)
        simp only [licmLoop, hx, if_true]
        refine ⟨hih.1, ?_⟩
        have := hih.2
        omega
      · have hb : (licmRound ctx exprId c e).2.2 = false := by simpa using hx
        simp [licmLoop, hb]

theorem licmLoop_fixpoint (ctx : LicmCtx) (exprId : Nat) :
    ∀ (fuel counter : Nat) (e : AExpr),
    (licmLoop ctx exprId fuel counter e).2.2.2 = true →
    (extract ctx (licmLoop ctx exprId fuel counter e).1).2.2 = [] := by
  intro fuel
  induction fuel with
  | zero => intro c e h; simp [licmLoop] at h
  | succ f ih =>
      intro c e h
      by_cases hx : (licmRound ctx exprId c e).2.2 = true
      · simp only [licmLoop, hx, if_true] at h ⊢
        exact ih (c + 1) _ h
      · have hb : (licmRound ctx exprId c e).2.2 = false := by simpa using hx
        simp only [licmLoop, hb, Bool.false_eq_true, if_false]
        have := licmRound_flag ctx exprId c e
        rw [hb] at this
        have hempty : (extract ctx e).2.2.isEmpty = true := by
          cases hi : (extract ctx e).2.2.isEmpty
          · rw [hi] at this; simp at this
          · rfl
        exact List.isEmpty_iff.mp hempty

theorem licmLoop_of_extract_nil {ctx : LicmCtx} {exprId : Nat}
    (fuel counter : Nat) (e : AExpr) (h : (extract ctx e).2.2 = []) :
    licmLoop ctx exprId (fuel + 1) counter e = (e, [], 0, true) := by
  have hflag : (licmRound ctx exprId counter e).2.2 = false := by
    rw [licmRound_flag, h]
    rfl
  simp [licmLoop, hflag]

/-! ## The Expression Expander -/

/-- The tags of `_expand` (lines 517-518): `GRP` marks a groupable,
opaque node; `EXP` marks an expandable one. -/
inductive EGTag where
  | grp
  | exp
deriving DecidableEq

/-- Binary-node constructors, for `ast_make_expr`-style joining. -/
inductive BinC where
  | bSum
  | bSub
  | bProd
  | bDiv
deriving DecidableEq

def applyB : BinC → AExpr → AExpr → AExpr
  | .bSum, l, r => .sum l r
  | .bSub, l, r => .sub l r
  | .bProd, l, r => .prod l r
  | .bDiv, l, r => .div l r

/-- `ast_make_expr(op, nodes)` (a `utils.py` helper, external to the
source files; modelled as the right-nested join of the nodes under the
operator, a single node passing through unchanged, and an impossible
empty input standing for Python's `None`). -/
def astMake (c : BinC) : List AExpr → AExpr
  | [] => .sym "None".data [] none
  | [x] => x
  | x :: y :: ys => applyB c x (astMake c (y :: ys))

/-- The expansion of a product node with at least one expandable side
(lines 631-647): with `groupable`/`expandable`/`expChild` as assigned on
lines 631-633, either the break case (the expandable list is exactly the
expanding child, lines 637-640: the product is replaced by the child
times the first groupable term) or the distribution case (every
expandable leaf is replaced, in symbol mode, by the sum of its expansions
with every groupable term, and the product node is replaced by the
mutated expanding child, lines 641-647). -/
def expandProd (groupable expandable : List AExpr) (expChild : AExpr)
    (acc : List AExpr) : Option (AExpr × List AExpr × EGTag × List AExpr) :=
  if expandable = [expChild] then
    match groupable with
    | [] => some (expChild, [expChild], .exp, acc)
    | g :: _ => some (.prod expChild g, [.prod expChild g], .exp, acc)
  else
    let pairs := expandable.map (fun x => (x, groupable.map (fun g => AExpr.prod x g)))
    let expansions := pairs.flatMap Prod.snd
    some (substS (pairs.map (fun q => (q.1, astMake .bSum q.2))) expChild,
          expansions, .exp, acc ++ expansions)

mutual
/-- `ExpressionExpander._expand` (lines 613-660), as a pure function
returning the rewritten node, the exps list, the tag and the
`self.expansions` recorded during the traversal.  The in-place mutations
of the source (`ast_replace(..., mode='symbol')` on line 643 and the
`parent.children[...] = expanding_child` assignment on line 646) are
reflected in the returned node.  When the unique expandable node is the
expanding child itself, the loop of lines 635-642 breaks on its first
iteration, so only the first groupable term is kept.  A `Neg` input hits
the `raise RuntimeError` of line 660, rendered as `none`. -/
def expandA (p : AExpr → Bool) : AExpr → Option (AExpr × List AExpr × EGTag × List AExpr)
  | .sym n r o =>
      some (.sym n r o, [.sym n r o], if p (.sym n r o) then .exp else .grp, [])
  | .par e => do
      let (e', xs, t, a) ← expandA p e
      some (.par e', xs, t, a)
  | .div l r => some (.div l r, [.div l r], .grp, [])
  | .funcall f args => some (.funcall f args, [.funcall f args], .grp, [])
  | .neg _ => none
  | .prod l r => do
      let (l', lexps, lt, la) ← expandA p l
      let (r', rexps, rt, ra) ← expandA p r
      if lt = .grp ∧ rt = .grp then
        some (.prod l' r', [.prod l' r'], .grp, la ++ ra)
      else
        expandProd (if lt = .grp then lexps else rexps)
          (if lt = .grp then rexps else lexps)
          (if lt = .grp then r' else l') (la ++ ra)
  | .sum l r => do
      let (l', lexps, lt, la) ← expandA p l
      let (r', rexps, rt, ra) ← expandA p r
      if lt = .exp ∧ rt = .exp then
        some (.sum l' r', lexps ++ rexps, .exp, la ++ ra)
      else some (.sum l' r', [.sum l' r'], .grp, la ++ ra)
  | .sub l r => do
      let (l', lexps, lt, la) ← expandA p l
      let (r', rexps, rt, ra) ← expandA p r
      if lt = .exp ∧ rt = .exp then
        some (.sub l' r', lexps ++ rexps.map AExpr.neg, .exp, la ++ ra)
      else some (.sub l' r', [.sub l' r'], .grp, la ++ ra)
end

def prodLeftChild : AExpr → AExpr
  | .prod l _ => l
  | e => e

/-- `ExpressionExpander.expand` (lines 662-684).  After `_expand`, each
recorded expansion is examined by `_hoist` (lines 541-611); when no
symbol of the expanded side is a tracked hoisted temporary accepted by
`should_expand`, the indexing of line 548-549 fails, the bare `except` of
line 550 fires, and the expansion contributes nothing, leaving
`to_replace` and `to_remove` empty — the statement stays as `_expand`
produced it.  Only that no-fusion path is modelled here; a run in which
some expansion does reach a hoisted temporary returns `none`
(fusion not modelled). -/
def expandRun (p : AExpr → Bool) (hoistedNames : List Str) (e : AExpr) :
    Option AExpr := do
  let (e', _, _, expansions) ← expandA p e
  if expansions.all (fun ex =>
      (collectSyms (prodLeftChild ex)).all
        (fun s => !(decide (symName s ∈ hoistedNames) && p s))) then
    some e'
  else none

/-! ## The Expression Factorizer -/

/-- `ExpressionFactorizer.Term` (lines 689-722): operand sub-trees
matched by the predicate, kept factor sub-trees, and the combining
operator.  Python's sets of AST objects hash by object identity and so
hold occurrences; they are embedded as occurrence lists, ordered only
when printed (`sorted(..., key=str)`). -/
structure FTerm where
  operands : List AExpr
  factors : List AExpr
  op : Option BinC

/-- Lexicographic byte order on printed forms, as Python string
comparison. -/
def strLe : Str → Str → Bool
  | [], _ => true
  | _ :: _, [] => false
  | a :: as, b :: bs =>
      if a.toNat < b.toNat then true
      else if b.toNat < a.toNat then false
      else strLe as bs

def insertR (x : AExpr) : List AExpr → List AExpr
  | [] => [x]
  | y :: ys => if strLe (render x) (render y) then x :: y :: ys else y :: insertR x ys

/-- `sorted(nodes, key=lambda o: str(o))` (stable insertion sort by
printed form). -/
def sortR : List AExpr → List AExpr
  | [] => []
  | x :: xs => insertR x (sortR xs)

/-- `Term.operands_ast` (lines 698-702). -/
def FTerm.operandsAst (t : FTerm) : AExpr := astMake .bProd (sortR t.operands)

/-- `Term.factors_ast` (lines 704-707); `op` is `None` only for terms
built from a lone symbol, whose factors never exceed one element, so the
`.bSum` default is never joined over. -/
def FTerm.factorsAst (t : FTerm) : AExpr :=
  match t.op with
  | some c => astMake c (sortR t.factors)
  | none => astMake .bSum (sortR t.factors)

/-- `Term.generate_ast` (lines 709-716). -/
def FTerm.generateAst (t : FTerm) : AExpr :=
  if t.factors.isEmpty then t.operandsAst
  else if t.operands.isEmpty then t.factorsAst
  else .prod t.operandsAst t.factorsAst

/-- `Term.process` (lines 718-722). -/
def FTerm.process (symbols : List AExpr) (p : AExpr → Bool) (op : Option BinC) :
    FTerm :=
  ⟨symbols.filter p, symbols.filter (fun s => !(p s)), op⟩

/-- `ExpressionFactorizer._simplify_sum` (lines 728-739): group the terms
by the printed form of their generated AST (keys in first-appearance
order), keep the first term of each group, and fold `n > 1` identical
terms into an explicit multiplicity operand `Symbol(n)`. -/
def simplifySum (terms : List FTerm) : List FTerm :=
  (dkf (terms.map (fun t => render t.generateAst))).map (fun k =>
    match terms.filter (fun t => render t.generateAst = k) with
    | [] => ⟨[], [], none⟩
    | t :: rest =>
        if rest.isEmpty then t
        else { t with operands := t.operands ++
          [.sym (natStr (rest.length + 1)) [] none] })

/-- The grouping step of the `Sum`/`Sub` case of `_factorize`
(lines 770-779): terms with the same printed operand product are merged,
the first term of a group supplying the operand set and every member
contributing its factor product; groups keep first-appearance order, the
combining operator of each grouped term is the node's own class
(line 774), and the grouped terms are joined by `Sum` (line 777)
regardless of that class.  Returns the replacement node and the Term
wrapping it (line 779). -/
def factorGroup (c : BinC) (terms : List FTerm) : AExpr × FTerm :=
  let groups := (dkf (terms.map (fun t => render t.operandsAst))).map (fun k =>
    match terms.filter (fun t => render t.operandsAst = k) with
    | [] => (⟨[], [], some c⟩ : FTerm)
    | t :: _ =>
        ⟨if t.operands.isEmpty then [] else [t.operandsAst],
         (terms.filter (fun t' => render t'.operandsAst = k)).flatMap
           (fun t' => if t'.factors.isEmpty then [] else [t'.factorsAst]),
         some c⟩)
  let result := astMake .bSum (groups.map FTerm.generateAst)
  (result, ⟨[result], [], none⟩)

mutual
/-- `ExpressionFactorizer._factorize` (lines 741-782), with explicit fuel
(the source recursion is plain; `2 * sizeA e + 2` provably suffices and
is used by the callers).  A `Neg` input hits the `raise RuntimeError` of
line 782, rendered as `none`; exhausted fuel is also `none`. -/
def factorizeF (p : AExpr → Bool) : Nat → AExpr → Option (AExpr × FTerm)
  | 0, _ => none
  | fuel + 1, e =>
      match e with
      | .sym n r o => some (.sym n r o, FTerm.process [.sym n r o] p none)
      | .par e' => do
          let (e'', t) ← factorizeF p fuel e'
          some (.par e'', t)
      | .funcall f args => some (.funcall f args, ⟨[.funcall f args], [], none⟩)
      | .div l r => some (.div l r, ⟨[.div l r], [], none⟩)
      | .neg _ => none
      | .prod l r => do
          let (l', s1, o1) ← prodChainF p fuel l
          let (r', s2, o2) ← prodChainF p fuel r
          let t := FTerm.process (s1 ++ s2) p (some .bProd)
          some (.prod l' r', ⟨t.operands ++ (o1 ++ o2), t.factors, t.op⟩)
      | .sum l r => do
          let ts1 ← chainTermsF p .bSum fuel l
          let ts2 ← chainTermsF p .bSum fuel r
          some (factorGroup .bSum (simplifySum (ts1 ++ ts2)))
      | .sub l r => do
          let ts1 ← chainTermsF p .bSub fuel l
          let ts2 ← chainTermsF p .bSub fuel r
          some (factorGroup .bSub (simplifySum (ts1 ++ ts2)))

/-- One side of a product chain (`explore_operator` flattening of nested
`Prod` nodes, lines 751-758): collects the symbol multiplicands, recurses
`_factorize` into the non-symbol ones, keeping only their operand sets
(line 757), and rebuilds the chain with the rewritten children in
place. -/
def prodChainF (p : AExpr → Bool) : Nat → AExpr → Option (AExpr × List AExpr × List AExpr)
  | 0, _ => none
  | fuel + 1, e =>
      match e with
      | .prod l r => do
          let (l', s1, o1) ← prodChainF p fuel l
          let (r', s2, o2) ← prodChainF p fuel r
          some (.prod l' r', s1 ++ s2, o1 ++ o2)
      | .sym n r o => some (.sym n r o, [.sym n r o], [])
      | other => do
          let (e', t) ← factorizeF p fuel other
          some (e', [], t.operands)

/-- The terms of one side of a `Sum`/`Sub` chain (`explore_operator`
flattening of nested same-class nodes, line 763, then `_factorize` of
each child, line 765). -/
def chainTermsF (p : AExpr → Bool) (c : BinC) : Nat → AExpr → Option (List FTerm)
  | 0, _ => none
  | fuel + 1, e =>
      match c, e with
      | .bSum, .sum l r => do
          let a ← chainTermsF p .bSum fuel l
          let b ← chainTermsF p .bSum fuel r
          some (a ++ b)
      | .bSub, .sub l r => do
          let a ← chainTermsF p .bSub fuel l
          let b ← chainTermsF p .bSub fuel r
          some (a ++ b)
      | _, other => do
          let (_, t) ← factorizeF p fuel other
          some [t]
end

/-- `ExpressionFactorizer.factorize` (lines 784-786) acting on the
statement's right-hand side: the rewritten expression (the `Sum`/`Sub`
case replaces the node in its parent, line 778; all other cases mutate
in place). -/
def factorizeRun (p : AExpr → Bool) (e : AExpr) : Option AExpr := do
  let (e', _) ← factorizeF p (2 * sizeA e + 2) e
  some e'

/-! ## Mode selection of `ExpressionRewriter.expand` / `factorize` -/

/-- `Counter(occurrences).most_common(1)` head: an element with the
largest count; ties resolve to the first-inserted key (`Counter`
preserves insertion order and `most_common` sorts stably).  `none` on an
empty list, where the source's `[0]` indexing raises `IndexError`. -/
def mostCommon (l : List (List Str)) : Option (List Str) :=
  match dkf l with
  | [] => none
  | k :: ks => some (ks.foldl (fun best k' =>
      if l.count k' > l.count best then k' else best) k)

/-- The standard-mode dimension selection of `ExpressionRewriter.expand`
(lines 153-160) and `ExpressionRewriter.factorize` (lines 199-206): take
the ranks of the ranked symbols of the right-hand side, filter each
against the expression domain, and pick the most common result. -/
def standardDimension (domain : List Str) (rhs : AExpr) : Option (List Str) :=
  mostCommon (((collectSyms rhs).filterMap
    (fun s => if symRank s ≠ [] then some (symRank s) else none)).map
    (fun rank => rank.filter (fun r => r ∈ domain)))

/-- Outcome of selecting an expansion/factorization strategy. -/
inductive ModeOutcome where
  | proceedsStd (dim : List Str)
  | proceedsPred
  | skipped
  | crash
deriving DecidableEq

/-- The mode dispatch of `ExpressionRewriter.expand` (lines 149-167):
standard mode selects the most common dimension — raising an unhandled
`IndexError` (`crash`) when no symbol has a nonempty rank — `full` mode
switches to the static-const predicate, and any other mode warns and
skips. -/
def expandModeSelect (mode : Str) (domain : List Str) (rhs : AExpr) : ModeOutcome :=
  if mode = "standard".data then
    match standardDimension domain rhs with
    | some d => .proceedsStd d
    | none => .crash
  else if mode = "full".data then .proceedsPred
  else .skipped

/-- The mode dispatch of `ExpressionRewriter.factorize` (lines 195-213):
an `if`/`elif` chain followed by a separate unknown-mode check, so the
standard-mode selection runs (and can raise) before that check. -/
def factorizeModeSelect (mode : Str) (domain : List Str) (rhs : AExpr) : ModeOutcome :=
  if mode = "standard".data then
    match standardDimension domain rhs with
    | some d => .proceedsStd d
    | none => .crash
  else if mode = "immutable".data then .proceedsPred
  else .skipped

/-- `set(dimension).issubset(set(n.rank))` — the standard-mode predicate
over symbols (lines 161, 207). -/
def dimPred (dim : List Str) (n : AExpr) : Bool :=
  dim.all (fun d => d ∈ symRank n)

/-- One `rewrite(2)` pass over a single statement
(`LoopOptimizer.rewrite`, optimizer lines 85-94): licm, standard-mode
expansion, standard-mode factorization, and a final licm call (its
`merge_and_simplify`/`compact_tmps` keywords are not read by
`ExpressionRewriter.licm`, lines 83-106, which only consults
`nrank_tmps`/`outer_only`, so it runs as a plain licm).  The hoister
instance keeps its round counter across the two licm calls, and the
expander consults the hoisted temporaries the first licm produced.
`none` models an abort (`IndexError`/`RuntimeError`) or an unmodelled
fusion path. -/
def rewrite2Stmt (ctx : LicmCtx) (exprId : Nat) (e : AExpr) :
    Option (AExpr × List Binding) := do
  let r1 := licmRun ctx exprId 0 e
  match expandModeSelect "standard".data ctx.domain r1.1 with
  | .proceedsStd dim => do
      let e2 ← expandRun (dimPred dim) (r1.2.1.map Binding.name) r1.1
      match factorizeModeSelect "standard".data ctx.domain e2 with
      | .proceedsStd dim2 => do
          let e3 ← factorizeRun (dimPred dim2) e2
          let r2 := licmRun ctx exprId r1.2.2.1 e3
          some (r2.1, r1.2.1 ++ r2.2.1)
      | _ => none
  | _ => none

/-- Expand the hoisted temporaries of `bs` back into their defining
expressions; later bindings may reference earlier temporaries, so
substitution proceeds from the last binding backwards. -/
def substBindings (bs : List Binding) (e : AExpr) : AExpr :=
  bs.foldr (fun b acc => substName b.name b.defn acc) e

/-! ## `CPULoopOptimizer.unroll` -/

/-- A `For` loop as `unroll` touches it: its dimension, the bound of its
condition (`size`), and the literal of its increment statement
(`loop.incr.children[1].symbol`, line 275). -/
structure UnLoop where
  dim : Str
  size : Nat
  incr : Nat
deriving DecidableEq

/-- A tracked expression as `unroll` sees it: the statement's two sides
and the indices (into the loop table) of `expr_info.perfect_loops`
(`MetaExpr` is external to the source files; spec §3). -/
structure UnExpr where
  lhs : AExpr
  rhs : AExpr
  perfectLoops : List Nat
deriving DecidableEq

structure UnState where
  loops : List UnLoop
  exprs : List UnExpr
deriving DecidableEq

mutual
/-- `update_expr` (optimizer lines 247-258): add `factor` to the offset
of every rank entry equal to `var`, instantiating the default `(1, 0)`
offsets first (line 252), and recursing into the children of every other
node. -/
def updateExpr (var : Str) (factor : Nat) : AExpr → AExpr
  | .sym n r o =>
      .sym n r (some ((r.zip (match o with
        | some ofs => ofs
        | none => r.map (fun _ => (1, 0)))).map (fun q =>
          if q.1 = var then (q.2.1, q.2.2 + factor) else q.2)))
  | .par e => .par (updateExpr var factor e)
  | .sum l r => .sum (updateExpr var factor l) (updateExpr var factor r)
  | .sub l r => .sub (updateExpr var factor l) (updateExpr var factor r)
  | .prod l r => .prod (updateExpr var factor l) (updateExpr var factor r)
  | .div l r => .div (updateExpr var factor l) (updateExpr var factor r)
  | .neg e => .neg (updateExpr var factor e)
  | .funcall f args => .funcall f (updateExprL var factor args)

def updateExprL (var : Str) (factor : Nat) : List AExpr → List AExpr
  | [] => []
  | e :: es => updateExpr var factor e :: updateExprL var factor es
end

/-- A statement clone with shifted offsets (lines 270-271: `dcopy` then
`update_expr` on the whole statement, hence both sides). -/
def updateStmt (var : Str) (factor : Nat) (ex : UnExpr) : UnExpr :=
  { ex with lhs := updateExpr var factor ex.lhs
            rhs := updateExpr var factor ex.rhs }

/-- `[l for l in expr_info.perfect_loops if l.dim == itspace][0]` when
nonempty (lines 264-268). -/
def findTargetLoop (loops : List UnLoop) (ex : UnExpr) (itspace : Str) :
    Option Nat :=
  (ex.perfectLoops.filter (fun i =>
    match loops.get? i with
    | some l => decide (l.dim = itspace)
    | none => false)).head?

/-- Increase the increment literal of loop `i` by `d`
(`loop.incr.children[1].symbol += uf-1`, line 275). -/
def bumpLoop (loops : List UnLoop) (i : Nat) (d : Nat) : List UnLoop :=
  loops.enum.map (fun q => if q.1 = i then { q.2 with incr := q.2.incr + d } else q.2)

/-- Processing of one tracked expression inside the statement loop of
`CPULoopOptimizer.unroll` (lines 262-276): skip it unless it has a
perfect loop over the dimension; otherwise append the `uf - 1`
offset-shifted clones and, the first time this loop is seen
(`unrolled_loops`), raise its increment by `uf - 1`. -/
def unrollStep (itspace : Str) (uf : Nat)
    (acc : List UnLoop × List UnExpr × List Nat) (ex : UnExpr) :
    List UnLoop × List UnExpr × List Nat :=
  match findTargetLoop acc.1 ex itspace with
  | none => acc
  | some li =>
      (if li ∈ acc.2.2 then acc.1 else bumpLoop acc.1 li (uf - 1),
       acc.2.1 ++ (List.range (uf - 1)).map (fun k => updateStmt itspace (k + 1) ex),
       if li ∈ acc.2.2 then acc.2.2 else li :: acc.2.2)

/-- The body of `CPULoopOptimizer.unroll` for one iteration space
(lines 261-277): fold `unrollStep` over a snapshot of the tracked
expressions (`new_exprs` is merged only at the end, line 277). -/
def unrollItspace (itspace : Str) (uf : Nat) (st : UnState × List Nat) :
    UnState × List Nat :=
  let folded := st.1.exprs.foldl (unrollStep itspace uf) (st.1.loops, [], st.2)
  (⟨folded.1, st.1.exprs ++ folded.2.1⟩, folded.2.2)

/-- `CPULoopOptimizer.unroll` (lines 242-277); the `unrolled_loops` set
is shared across iteration spaces. -/
def unroll (loopUf : List (Str × Nat)) (st : UnState) : UnState :=
  (loopUf.foldl (fun acc q => unrollItspace q.1 q.2 acc) (st, [])).1

/-- Iterations executed by `for (r = 0; r < size; r += incr)` — the trip
count of a loop in the sense of the specification. -/
def tripCount (l : UnLoop) : Nat := (l.size + l.incr - 1) / l.incr

mutual
/-- The offsets along dimension `d` occurring in an expression, one entry
per matching rank position of every symbol, with the default `(1, 0)`
offsets instantiated — the observable `update_expr` acts on. -/
def offsetsAlong (d : Str) : AExpr → List (Nat × Nat)
  | .sym _ r o =>
      ((r.zip (match o with
        | some ofs => ofs
        | none => r.map (fun _ => (1, 0)))).filter (fun q => q.1 = d)).map Prod.snd
  | .par e => offsetsAlong d e
  | .sum l r => offsetsAlong d l ++ offsetsAlong d r
  | .sub l r => offsetsAlong d l ++ offsetsAlong d r
  | .prod l r => offsetsAlong d l ++ offsetsAlong d r
  | .div l r => offsetsAlong d l ++ offsetsAlong d r
  | .neg e => offsetsAlong d e
  | .funcall _ args => offsetsAlongL d args

def offsetsAlongL (d : Str) : List AExpr → List (Nat × Nat)
  | [] => []
  | e :: es => offsetsAlong d e ++ offsetsAlongL d es
end

/-- The clones `unroll` creates for one tracked expression: none without
a perfect loop over the dimension, otherwise `u - 1` copies with offsets
shifted by `1 .. u-1`. -/
def unrollClones (loops : List UnLoop) (d : Str) (u : Nat) (ex : UnExpr) :
    List UnExpr :=
  match findTargetLoop loops ex d with
  | some _ => (List.range (u - 1)).map (fun k => updateStmt d (k + 1) ex)
  | none => []

theorem zip_bump (d : Str) (f : Nat) :
    ∀ (r : List Str) (ofs : List (Nat × Nat)),
    ((r.zip ((r.zip ofs).map
        (fun q => if q.1 = d then (q.2.1, q.2.2 + f) else q.2))).filter
      (fun q => q.1 = d)).map Prod.snd =
    (((r.zip ofs).filter (fun q => q.1 = d)).map Prod.snd).map
      (fun q => (q.1, q.2 + f)) := by
  intro r
  induction r with
  | nil => intro ofs; simp
  | cons a r ih =>
      intro ofs
      cases ofs with
      | nil => simp
      | cons o os =>
          by_cases ha : a = d
          · simp [ha, ih os]
          · simp [ha, ih os]

mutual
theorem offsetsAlong_updateExpr (d : Str) (f : Nat) :
    ∀ e : AExpr, offsetsAlong d (updateExpr d f e) =
      (offsetsAlong d e).map (fun q => (q.1, q.2 + f))
  | .sym n r o => by
      cases o with
      | none =>
          simp only [updateExpr, offsetsAlong]
          exact zip_bump d f r (r.map (fun _ => (1, 0)))
      | some ofs =>
          simp only [updateExpr, offsetsAlong]
          exact zip_bump d f r ofs
  | .par e => by
      simp [updateExpr, offsetsAlong, offsetsAlong_updateExpr d f e]
  | .sum l r => by
      simp [updateExpr, offsetsAlong, offsetsAlong_updateExpr d f l,
        offsetsAlong_updateExpr d f r]
  | .sub l r => by
      simp [updateExpr, offsetsAlong, offsetsAlong_updateExpr d f l,
        offsetsAlong_updateExpr d f r]
  | .prod l r => by
      simp [updateExpr, offsetsAlong, offsetsAlong_updateExpr d f l,
        offsetsAlong_updateExpr d f r]
  | .div l r => by
      simp [updateExpr, offsetsAlong, offsetsAlong_updateExpr d f l,
        offsetsAlong_updateExpr d f r]
  | .neg e => by
      simp [updateExpr, offsetsAlong, offsetsAlong_updateExpr d f e]
  | .funcall g args => by
      simp [updateExpr, offsetsAlong, offsetsAlongL_updateExprL d f args]

theorem offsetsAlongL_updateExprL (d : Str) (f : Nat) :
    ∀ es : List AExpr, offsetsAlongL d (updateExprL d f es) =
      (offsetsAlongL d es).map (fun q => (q.1, q.2 + f))
  | [] => by simp [updateExprL, offsetsAlongL]
  | e :: es => by
      simp [updateExprL, offsetsAlongL, offsetsAlong_updateExpr d f e,
        offsetsAlongL_updateExprL d f es]
end

theorem bumpLoop_get (loops : List UnLoop) (i δ j : Nat) :
    (bumpLoop loops i δ).get? j = (loops.get? j).map
      (fun l => if j = i then { l with incr := l.incr + δ } else l) := by
  simp only [bumpLoop, List.get?_eq_getElem?, List.getElem?_map,
    List.getElem?_enum]
  cases h : loops[j]? <;> simp

theorem bumpLoop_dim (loops : List UnLoop) (i δ j : Nat) :
    ((bumpLoop loops i δ).get? j).map UnLoop.dim =
      (loops.get? j).map UnLoop.dim := by
  rw [bumpLoop_get]
  cases h : loops.get? j
  · simp
  · by_cases hj : j = i <;> simp [hj]

theorem findTargetLoop_congr {loops loops' : List UnLoop} (ex : UnExpr)
    (d : Str)
    (h : ∀ j, (loops'.get? j).map UnLoop.dim = (loops.get? j).map UnLoop.dim) :
    findTargetLoop loops' ex d = findTargetLoop loops ex d := by
  unfold findTargetLoop
  congr 1
  apply List.filter_congr
  intro i _
  have hi := h i
  cases h1 : loops'.get? i <;> cases h2 : loops.get? i <;>
    rw [h1, h2] at hi <;> simp at hi ⊢
  rw [hi]

theorem unroll_fold_inv (d : Str) (u : Nat) (L0 : List UnLoop) :
    ∀ (exs : List UnExpr) (loops : List UnLoop) (cl : List UnExpr)
      (seen : List Nat),
    (∀ j, (loops.get? j).map UnLoop.dim = (L0.get? j).map UnLoop.dim) →
    (∀ j l, L0.get? j = some l →
      loops.get? j =
        some (if j ∈ seen then { l with incr := l.incr + (u - 1) } else l)) →
    ((exs.foldl (unrollStep d u) (loops, cl, seen)).2.1 =
        cl ++ exs.flatMap (unrollClones L0 d u)) ∧
    (∀ j, ((exs.foldl (unrollStep d u) (loops, cl, seen)).1.get? j).map
        UnLoop.dim = (L0.get? j).map UnLoop.dim) ∧
    (∀ j, j ∈ (exs.foldl (unrollStep d u) (loops, cl, seen)).2.2 ↔
        j ∈ seen ∨ ∃ ex ∈ exs, findTargetLoop L0 ex d = some j) ∧
    (∀ j l, L0.get? j = some l →
      (exs.foldl (unrollStep d u) (loops, cl, seen)).1.get? j =
        some (if j ∈ (exs.foldl (unrollStep d u) (loops, cl, seen)).2.2
          then { l with incr := l.incr + (u - 1) } else l)) := by
  intro exs
  induction exs with
  | nil =>
      intro loops cl seen hdim hincr
      refine ⟨by simp, hdim, by simp, hincr⟩
  | cons ex exs ih =>
      intro loops cl seen hdim hincr
      have hfc : findTargetLoop loops ex d = findTargetLoop L0 ex d :=
        findTargetLoop_congr ex d hdim
      simp only [List.foldl_cons]
      cases hft : findTargetLoop L0 ex d with
      | none =>
          have hstep : unrollStep d u (loops, cl, seen) ex = (loops, cl, seen) := by
            simp only [unrollStep, hfc, hft]
          simp only [hstep]
          obtain ⟨c1, c2, c3, c4⟩ := ih loops cl seen hdim hincr
          refine ⟨?_, c2, ?_, c4⟩
          · rw [c1]
            simp [unrollClones, hft]
          · intro j
            rw [c3]
            simp [hft]
      | some li =>
          have hstep : unrollStep d u (loops, cl, seen) ex =
              (if li ∈ seen then loops else bumpLoop loops li (u - 1),
               cl ++ (List.range (u - 1)).map
                 (fun k => updateStmt d (k + 1) ex),
               if li ∈ seen then seen else li :: seen) := by
            simp only [unrollStep, hfc, hft]
          simp only [hstep]
          have hdim' : ∀ j,
              ((if li ∈ seen then loops else bumpLoop loops li (u - 1)).get? j).map
                UnLoop.dim = (L0.get? j).map UnLoop.dim := by
            intro j
            by_cases hm : li ∈ seen
            · simpa [hm] using hdim j
            · simp only [hm, if_false]
              rw [bumpLoop_dim]
              exact hdim j
          have hincr' : ∀ j l, L0.get? j = some l →
              (if li ∈ seen then loops else bumpLoop loops li (u - 1)).get? j =
                some (if j ∈ (if li ∈ seen then seen else li :: seen)
                  then { l with incr := l.incr + (u - 1) } else l) := by
            intro j l hl
            by_cases hm : li ∈ seen
            · simpa [hm] using hincr j l hl
            · simp only [hm, if_false]
              rw [bumpLoop_get, hincr j l hl]
              by_cases hj : j = li
              · subst hj
                have : j ∉ seen := hm
                simp [this]
              · have : (j ∈ li :: seen) ↔ (j ∈ seen) := by
                  simp [List.mem_cons, hj]
                by_cases hs : j ∈ seen <;> simp [hj, hs, this]
          obtain ⟨c1, c2, c3, c4⟩ := ih _ _ _ hdim' hincr'
          refine ⟨?_, c2, ?_, c4⟩
          · rw [c1]
            simp [unrollClones, hft, List.append_assoc]
          · intro j
            have hiff : (∃ x ∈ ex :: exs, findTargetLoop L0 x d = some j) ↔
                (li = j ∨ ∃ x ∈ exs, findTargetLoop L0 x d = some j) := by
              constructor
              · rintro ⟨x, hx, hfx⟩
                rcases List.mem_cons.mp hx with rfl | hx'
                · rw [hft] at hfx
                  exact Or.inl (Option.some.inj hfx)
                · exact Or.inr ⟨x, hx', hfx⟩
              · rintro (rfl | ⟨x, hx, hfx⟩)
                · exact ⟨ex, List.mem_cons_self _ _, hft⟩
                · exact ⟨x, List.mem_cons_of_mem _ hx, hfx⟩
            rw [c3, hiff]
            by_cases hm : li ∈ seen
            · simp only [hm, if_true]
              constructor
              · rintro (hj | hj)
                · exact Or.inl hj
                · exact Or.inr (Or.inr hj)
              · rintro (hj | hj | hj)
                · exact Or.inl hj
                · exact Or.inl (hj ▸ hm)
                · exact Or.inr hj
            · simp only [hm, if_false, List.mem_cons]
              constructor
              · rintro ((hj | hj) | hj)
                · exact Or.inr (Or.inl hj.symm)
                · exact Or.inl hj
                · exact Or.inr (Or.inr hj)
              · rintro (hj | hj | hj)
                · exact Or.inl (Or.inr hj)
                · exact Or.inl (Or.inl hj.symm)
                · exact Or.inr hj

/-! ## `CPULoopOptimizer.permute` and `CPULoopOptimizer.blas` -/

def loopDim : Stmt → Str
  | .forS d _ _ _ => d
  | _ => []

def loopSize : Stmt → Nat
  | .forS _ n _ _ => n
  | _ => 0

def loopStep : Stmt → Nat
  | .forS _ _ s _ => s
  | _ => 0

/-- Overwrite a loop's iteration space (`itspace_copy`, a `utils.py`
helper external to the source files; modelled as copying dimension,
bound and step). -/
def setItspace (d : Str) (n s : Nat) : Stmt → Stmt
  | .forS _ _ _ body => .forS d n s body
  | st => st

mutual
/-- `inner_loops(loop)[0]` (a `utils.py` helper external to the source
files; modelled as the innermost loop along the first-`For` chain). -/
def innerLoopOf : Stmt → Stmt
  | .forS d n s body =>
      match innerLoopOfL body with
      | some f => f
      | none => .forS d n s body
  | st => st

def innerLoopOfL : List Stmt → Option Stmt
  | [] => none
  | s :: ss => if isFor s then some (innerLoopOf s) else innerLoopOfL ss
end

mutual
/-- Replace the innermost loop's iteration space along the first-`For`
chain. -/
def setInnerItspace (d : Str) (n s : Nat) : Stmt → Stmt
  | .forS d0 n0 s0 body =>
      if body.any isFor then .forS d0 n0 s0 (setInnerItspaceL d n s body)
      else .forS d n s body
  | st => st

def setInnerItspaceL (d : Str) (n s : Nat) : List Stmt → List Stmt
  | [] => []
  | st :: ss =>
      if isFor st then setInnerItspace d n s st :: ss
      else st :: setInnerItspaceL d n s ss
end

mutual
/-- The name-collecting mode of `transpose_layout` (optimizer lines
285-305 with `to_transpose` empty): every symbol name encountered. -/
def stmtSymNames : Stmt → List Str
  | .assign l r => (collectSyms l ++ collectSyms r).map symName
  | .incr l r => (collectSyms l ++ collectSyms r).map symName
  | .decl n _ => [n]
  | .forS _ _ _ body => stmtSymNamesL body
  | .flat _ => []

def stmtSymNamesL : List Stmt → List Str
  | [] => []
  | s :: ss => stmtSymNames s ++ stmtSymNamesL ss
end

/-- The rank-swapping mode of `transpose_layout` (line 298:
`node.rank = (node.rank[1], node.rank[0])`, which builds an exact pair —
longer ranks are truncated; a rank shorter than two would raise and is
left unchanged here). -/
def swapRank (r : List Str) : List Str :=
  match r with
  | a :: b :: _ => [b, a]
  | _ => r

mutual
def transposeA (names : List Str) : AExpr → AExpr
  | .sym n r o => if n ∈ names then .sym n (swapRank r) o else .sym n r o
  | .par e => .par (transposeA names e)
  | .sum l r => .sum (transposeA names l) (transposeA names r)
  | .sub l r => .sub (transposeA names l) (transposeA names r)
  | .prod l r => .prod (transposeA names l) (transposeA names r)
  | .div l r => .div (transposeA names l) (transposeA names r)
  | .neg e => .neg (transposeA names e)
  | .funcall f args => .funcall f (transposeAL names args)

def transposeAL (names : List Str) : List AExpr → List AExpr
  | [] => []
  | e :: es => transposeA names e :: transposeAL names es
end

mutual
def transposeS (names : List Str) : Stmt → Stmt
  | .assign l r => .assign (transposeA names l) (transposeA names r)
  | .incr l r => .incr (transposeA names l) (transposeA names r)
  | .decl n r => if n ∈ names then .decl n (swapRank r) else .decl n r
  | .forS d n s body => .forS d n s (transposeSL names body)
  | .flat s => .flat s

def transposeSL (names : List Str) : List Stmt → List Stmt
  | [] => []
  | s :: ss => transposeS names s :: transposeSL names ss
end

/-- `CPULoopOptimizer.permute` (optimizer lines 279-321): a no-op unless
the outermost loop is perfect (lines 307-309); otherwise the outermost
and innermost iteration spaces are swapped (lines 311-316) and, with
`transpose` set, the storage layout of the symbols referenced in the
relocated inner loop is transposed across the header (lines 318-321). -/
def permuteModel (loop : Stmt) (header : List Stmt) (transpose : Bool) :
    Stmt × List Stmt :=
  if isPerfectLoop loop then
    let inner := innerLoopOf loop
    let swapped := setItspace (loopDim inner) (loopSize inner) (loopStep inner)
      (setInnerItspace (loopDim loop) (loopSize loop) (loopStep loop) loop)
    if transpose then
      (swapped, (header.map (transposeS (stmtSymNames (innerLoopOf swapped)))))
    else (swapped, header)
  else (loop, header)

/-- `CPULoopOptimizer.blas` (optimizer lines 364-373): applies only to a
loop nest of depth exactly 3, returning without transforming otherwise;
the dense linear-algebra lowering (`linear_algebra.py`) is external and
taken as a parameter. -/
def blasModel {R : Type} (transform : Stmt → Option R × Stmt) (loop : Stmt) :
    Option R × Stmt :=
  if maxDepth loop ≠ 3 then (none, loop)
  else transform loop

/-! ## The global registries and `LoopOptimizer.rewrite` -/

def indexOfA : List AExpr → AExpr → Option Nat
  | [], _ => none
  | x :: xs, s => if x = s then some 0 else (indexOfA xs s).map (· + 1)

/-- The registry lookup-or-append of the `ExpressionHoister` and
`ExpressionExpander` constructors (rewriter lines 290-296, 531-536):
`self._expr_handled.index(stmt)`, appending on `ValueError`.  The
identity-keyed Python list is embedded by value (distinct statements are
distinct values). -/
def registerStmt (reg : List AExpr) (s : AExpr) : Nat × List AExpr :=
  match indexOfA reg s with
  | some i => (i, reg)
  | none => (reg.length, reg ++ [s])

/-- The process-global `_expr_handled` registries (rewriter lines 272 and
521). -/
structure Registries where
  hoistReg : List AExpr
  expReg : List AExpr
deriving DecidableEq

/-- `ExpressionRewriter.reset` (rewriter lines 263-266): both registries
are cleared in place. -/
def resetRegistries (_ : Registries) : Registries := ⟨[], []⟩

/-- `LoopOptimizer.rewrite` (optimizer lines 66-94) as it acts on the
global registries: `ExpressionRewriter.reset()` runs first (line 85,
before the loop and regardless of `level`), then each statement's
`ExpressionRewriter` construction registers the statement in both
registries (the constructor always builds the hoister and the expander,
lines 69-81); `licm` runs when `level > 0`, neither it nor
expansion/factorization touching the registries.  Returns the final
registries and, per statement in order, its hoister and expander
expression identifiers and whether it was licm'd. -/
def rewriteRegistries (level : Nat) (stmts : List AExpr) (regs : Registries) :
    Registries × List (Nat × Nat × Bool) :=
  stmts.foldl (fun acc s =>
    ((⟨(registerStmt acc.1.hoistReg s).2, (registerStmt acc.1.expReg s).2⟩ : Registries),
     acc.2 ++ [((registerStmt acc.1.hoistReg s).1, (registerStmt acc.1.expReg s).1,
       decide (level > 0))]))
    (resetRegistries regs, [])

/-! ## Provenance of the bindings a round produces -/

/-- A binding with its multiply-referenced flag cleared; the flag is the
only field the replacement step rewrites after a binding is created. -/
def bNorm (b : Binding) : Binding := { b with multiple := false }

theorem groupBindings_multiple_false {ctx : LicmCtx} {exprId roundNo : Nat}
    {dep : List Str} {subexprs : List AExpr} {b : Binding}
    (hb : b ∈ groupBindings ctx exprId roundNo dep subexprs) :
    b.multiple = false := by
  simp only [groupBindings, List.mem_map] at hb
  obtain ⟨q, _, he⟩ := hb
  rw [← he]

theorem bNorm_of_multiple_false {b : Binding} (h : b.multiple = false) :
    bNorm b = b := by
  cases b
  simp only [bNorm]
  simp_all

theorem map_bNorm_update (l : List Binding) (f : Binding → Bool)
    (h : ∀ b ∈ l, b.multiple = false) :
    (l.map (fun b => { b with multiple := f b })).map bNorm = l := by
  induction l with
  | nil => rfl
  | cons b bs ih =>
      simp only [List.map_cons, List.cons.injEq]
      refine ⟨?_, ih (fun b hb => h b (List.mem_cons_of_mem _ hb))⟩
      have hb := h b (List.mem_cons_self _ _)
      cases b
      simp_all [bNorm]

theorem foldl_roundStep_norm (ctx : LicmCtx) (exprId roundNo : Nat)
    (recorded : List (List Str × AExpr)) :
    ∀ (keys : List (List Str)) (acc : AExpr × List Binding),
    ((keys.foldl (roundStep ctx exprId roundNo recorded) acc).2).map bNorm =
      acc.2.map bNorm ++ keys.flatMap
        (fun dep => groupBindings ctx exprId roundNo dep (groupSubexprs recorded dep)) := by
  intro keys
  induction keys with
  | nil => intro acc; simp
  | cons k ks ih =>
      intro acc
      simp only [List.foldl_cons, List.flatMap_cons]
      rw [ih]
      have hsnd : (roundStep ctx exprId roundNo recorded acc k).2.map bNorm =
          acc.2.map bNorm ++
            groupBindings ctx exprId roundNo k (groupSubexprs recorded k) := by
        show (acc.2 ++ _).map bNorm = _
        rw [List.map_append]
        congr 1
        exact map_bNorm_update _ _ (fun b hb => groupBindings_multiple_false hb)
      rw [hsnd, List.append_assoc]

theorem licmRound_bindings_norm {ctx : LicmCtx} {exprId counter : Nat} {e : AExpr}
    (h : (licmRound ctx exprId counter e).2.2 = true) :
    ((licmRound ctx exprId counter e).2.1).map bNorm =
      (dkf ((extract ctx e).2.2.map Prod.fst)).flatMap
        (fun dep => groupBindings ctx exprId (counter + 1) dep
          (groupSubexprs (extract ctx e).2.2 dep)) := by
  by_cases hh : (extract ctx e).2.2.isEmpty
  · simp [licmRound, hh] at h
  · have : (licmRound ctx exprId counter e).2.1 =
        ((dkf ((extract ctx e).2.2.map Prod.fst)).foldl
          (roundStep ctx exprId (counter + 1) (extract ctx e).2.2) (e, [])).2 := by
      simp [licmRound, hh]
    rw [this, foldl_roundStep_norm]
    simp

theorem groupBindings_mem {ctx : LicmCtx} {exprId roundNo : Nat}
    {dep : List Str} {subexprs : List AExpr} {b : Binding}
    (hb : b ∈ groupBindings ctx exprId roundNo dep subexprs) :
    b.dep = dep ∧ b.roundNo = roundNo ∧
    b.pos = (hoistPos ctx dep).1 ∧ b.wrap = (hoistPos ctx dep).2 ∧
    b.occRank = (hoistPos ctx dep).2.map Prod.fst ∧
    b.declRank = (hoistPos ctx dep).2.map Prod.snd ∧
    b.name = hoistName dep exprId roundNo b.idx := by
  simp only [groupBindings, List.mem_map] at hb
  obtain ⟨q, _, he⟩ := hb
  rw [← he]
  simp

/-- Membership of a binding in a round's output, with the `multiple`
field abstracted away. -/
theorem licmRound_mem_norm {ctx : LicmCtx} {exprId counter : Nat} {e : AExpr}
    {b : Binding} (hb : b ∈ (licmRound ctx exprId counter e).2.1) :
    ∃ dep, bNorm b ∈ groupBindings ctx exprId (counter + 1) dep
      (groupSubexprs (extract ctx e).2.2 dep) := by
  have hflag : (licmRound ctx exprId counter e).2.2 = true := by
    by_cases hh : (extract ctx e).2.2.isEmpty
    · simp [licmRound, hh] at hb
    · simp [licmRound, hh]
  have hmem : bNorm b ∈ ((licmRound ctx exprId counter e).2.1).map bNorm :=
    List.mem_map_of_mem _ hb
  rw [licmRound_bindings_norm hflag] at hmem
  obtain ⟨dep, _, hdep⟩ := List.mem_flatMap.mp hmem
  exact ⟨dep, hdep⟩

/-! ## Supporting lemmas for the mode-selection and registry claims -/

theorem standardDimension_none {domain : List Str} {rhs : AExpr}
    (h : ∀ s ∈ collectSyms rhs, symRank s = []) :
    standardDimension domain rhs = none := by
  have hfm : (collectSyms rhs).filterMap
      (fun s => if symRank s ≠ [] then some (symRank s) else none) = [] := by
    rw [List.filterMap_eq_nil_iff]
    intro s hs
    simp [h s hs]
  simp only [standardDimension, hfm, List.map_nil, mostCommon, dkf, dkfAux]

theorem foldl_registerStep_snd (level : Nat) :
    ∀ (l : List AExpr) (r : Registries) (out : List (Nat × Nat × Bool)),
    ∃ t, (l.foldl (fun acc s =>
      ((⟨(registerStmt acc.1.hoistReg s).2, (registerStmt acc.1.expReg s).2⟩ : Registries),
       acc.2 ++ [((registerStmt acc.1.hoistReg s).1, (registerStmt acc.1.expReg s).1,
         decide (level > 0))])) (r, out)).2 = out ++ t := by
  intro l
  induction l with
  | nil => intro r out; exact ⟨[], by simp⟩
  | cons s l ih =>
      intro r out
      simp only [List.foldl_cons]
      obtain ⟨t, ht⟩ := ih _ (out ++ [((registerStmt r.hoistReg s).1,
        (registerStmt r.expReg s).1, decide (level > 0))])
      exact ⟨[((registerStmt r.hoistReg s).1, (registerStmt r.expReg s).1,
        decide (level > 0))] ++ t, by rw [ht, List.append_assoc]⟩

/-! ## The expander's name template, and injectivity of the templates -/

/-- The component list of `_expanded_sym`,
`"%(loop_dep)s_EXP_%(expr_id)d_%(i)d"` (rewriter line 523). -/
def expComps (dep : List Str) (exprId i : Nat) : List Str :=
  depComps dep ++ [['E', 'X', 'P'], natStr exprId, natStr i]

/-- `_expanded_sym % {...}` (lines 523, 556-559, 576-579); `i` is
`len(self.expanded_syms)` at creation time. -/
def expName (dep : List Str) (exprId i : Nat) : Str :=
  joinU (expComps dep exprId i)

theorem natStr_no_underscore (n : Nat) : '_' ∉ natStr n := by
  intro hm
  have := natStr_digits n '_' hm
  simp [isDigitCh] at this

theorem hoistComps_underscore {dep : List Str} (exprId roundNo idx : Nat)
    (hu : ∀ c ∈ depComps dep, '_' ∉ c) :
    ∀ c ∈ hoistComps dep exprId roundNo idx, '_' ∉ c := by
  intro c hc
  rcases List.mem_append.mp hc with h | h
  · exact hu c h
  · simp only [List.mem_cons, List.not_mem_nil, or_false] at h
    rcases h with h | h | h
    · exact h ▸ natStr_no_underscore _
    · exact h ▸ natStr_no_underscore _
    · exact h ▸ natStr_no_underscore _

theorem expComps_underscore {dep : List Str} (exprId idx : Nat)
    (hu : ∀ c ∈ depComps dep, '_' ∉ c) :
    ∀ c ∈ expComps dep exprId idx, '_' ∉ c := by
  intro c hc
  rcases List.mem_append.mp hc with h | h
  · exact hu c h
  · simp only [List.mem_cons, List.not_mem_nil, or_false] at h
    rcases h with h | h | h
    · subst h; decide
    · exact h ▸ natStr_no_underscore _
    · exact h ▸ natStr_no_underscore _

theorem depComps_ne_nil (dep : List Str) : depComps dep ≠ [] := by
  cases dep <;> simp [depComps]

theorem hoistName_inj {dep1 dep2 : List Str} {e1 e2 r1 r2 i1 i2 : Nat}
    (hu1 : ∀ c ∈ depComps dep1, '_' ∉ c)
    (hu2 : ∀ c ∈ depComps dep2, '_' ∉ c)
    (h : hoistName dep1 e1 r1 i1 = hoistName dep2 e2 r2 i2) :
    depComps dep1 = depComps dep2 ∧ e1 = e2 ∧ r1 = r2 ∧ i1 = i2 := by
  have hcomps : hoistComps dep1 e1 r1 i1 = hoistComps dep2 e2 r2 i2 := by
    apply joinU_inj _ _ _ _ (hoistComps_underscore e1 r1 i1 hu1)
      (hoistComps_underscore e2 r2 i2 hu2) h
    · simp [hoistComps]
    · simp [hoistComps]
  have hlen : (depComps dep1).length = (depComps dep2).length := by
    have := congrArg List.length hcomps
    simp [hoistComps] at this
    omega
  obtain ⟨hpre, hsuf⟩ := List.append_inj hcomps hlen
  simp only [List.cons.injEq, and_true] at hsuf
  exact ⟨hpre, natStr_inj hsuf.1, natStr_inj hsuf.2.1, natStr_inj hsuf.2.2⟩

theorem expName_inj {dep1 dep2 : List Str} {e1 e2 i1 i2 : Nat}
    (hu1 : ∀ c ∈ depComps dep1, '_' ∉ c)
    (hu2 : ∀ c ∈ depComps dep2, '_' ∉ c)
    (h : expName dep1 e1 i1 = expName dep2 e2 i2) :
    depComps dep1 = depComps dep2 ∧ e1 = e2 ∧ i1 = i2 := by
  have hcomps : expComps dep1 e1 i1 = expComps dep2 e2 i2 := by
    apply joinU_inj _ _ _ _ (expComps_underscore e1 i1 hu1)
      (expComps_underscore e2 i2 hu2) h
    · simp [expComps]
    · simp [expComps]
  have hlen : (depComps dep1).length = (depComps dep2).length := by
    have := congrArg List.length hcomps
    simp [expComps] at this
    omega
  obtain ⟨hpre, hsuf⟩ := List.append_inj hcomps hlen
  simp only [List.cons.injEq, and_true] at hsuf
  exact ⟨hpre, natStr_inj hsuf.2.1, natStr_inj hsuf.2.2⟩

theorem hoistName_ne_expName {dep1 dep2 : List Str} {e1 r1 i1 e2 i2 : Nat}
    (hu1 : ∀ c ∈ depComps dep1, '_' ∉ c)
    (hu2 : ∀ c ∈ depComps dep2, '_' ∉ c) :
    hoistName dep1 e1 r1 i1 ≠ expName dep2 e2 i2 := by
  intro h
  have hcomps : hoistComps dep1 e1 r1 i1 = expComps dep2 e2 i2 := by
    apply joinU_inj _ _ _ _ (hoistComps_underscore e1 r1 i1 hu1)
      (expComps_underscore e2 i2 hu2) h
    · simp [hoistComps]
    · simp [expComps]
  have hlen : (depComps dep1).length = (depComps dep2).length := by
    have := congrArg List.length hcomps
    simp [hoistComps, expComps] at this
    omega
  obtain ⟨_, hsuf⟩ := List.append_inj hcomps hlen
  simp only [List.cons.injEq, and_true] at hsuf
  have hE : 'E' ∈ natStr e1 := by
    rw [hsuf.1]
    decide
  have := natStr_digits e1 'E' hE
  simp [isDigitCh] at this

/-! ## Provenance and distinctness of the hoister's names -/

theorem licmRound_shape {ctx : LicmCtx} {exprId counter : Nat} {e : AExpr}
    {b : Binding} (hb : b ∈ (licmRound ctx exprId counter e).2.1) :
    b.name = hoistName b.dep exprId b.roundNo b.idx ∧
    b.roundNo = counter + 1 := by
  obtain ⟨dep, hg⟩ := licmRound_mem_norm hb
  obtain ⟨hdep, hrn, _, _, _, _, hname⟩ := groupBindings_mem hg
  have hdep' : b.dep = dep := hdep
  have hrn' : b.roundNo = counter + 1 := hrn
  refine ⟨?_, hrn'⟩
  have hname' : b.name = hoistName dep exprId (counter + 1) b.idx := hname
  rw [hname', hdep', hrn']

theorem licmLoop_shape (ctx : LicmCtx) (exprId : Nat) :
    ∀ (fuel counter : Nat) (e : AExpr) (b : Binding),
    b ∈ (licmLoop ctx exprId fuel counter e).2.1 →
    b.name = hoistName b.dep exprId b.roundNo b.idx ∧ counter < b.roundNo := by
  intro fuel
  induction fuel with
  | zero => intro c e b hb; simp [licmLoop] at hb
  | succ f ih =>
      intro c e b hb
      by_cases hx : (licmRound ctx exprId c e).2.2 = true
      · simp only [licmLoop, hx, if_true] at hb
        rcases List.mem_append.mp hb with h | h
        · obtain ⟨h1, h2⟩ := licmRound_shape h
          exact ⟨h1, by omega⟩
        · obtain ⟨h1, h2⟩ := ih (c + 1) _ b h
          exact ⟨h1, by omega⟩
      · have hb2 : (licmRound ctx exprId c e).2.2 = false := by simpa using hx
        simp [licmLoop, hb2] at hb

theorem groupBindings_names_nodup (ctx : LicmCtx) (exprId roundNo : Nat)
    (dep : List Str) (subexprs : List AExpr)
    (hu : ∀ c ∈ depComps dep, '_' ∉ c) :
    ((groupBindings ctx exprId roundNo dep subexprs).map Binding.name).Nodup := by
  have heq : (groupBindings ctx exprId roundNo dep subexprs).map Binding.name =
      (subexprs.enum.map Prod.fst).map
        (fun i => hoistName dep exprId roundNo i) := by
    simp only [groupBindings, List.map_map, Function.comp_def]
  rw [heq, List.enum_map_fst]
  apply List.Nodup.map_on
  · intro x _ y _ hxy
    exact (hoistName_inj hu hu hxy).2.2.2
  · exact List.nodup_range _

theorem licmRound_names_nodup {ctx : LicmCtx} {exprId counter : Nat}
    {e : AExpr}
    (hu : ∀ b ∈ (licmRound ctx exprId counter e).2.1,
      ∀ c ∈ depComps b.dep, '_' ∉ c)
    (hinj : ∀ b1 ∈ (licmRound ctx exprId counter e).2.1,
      ∀ b2 ∈ (licmRound ctx exprId counter e).2.1,
      depComps b1.dep = depComps b2.dep → b1.dep = b2.dep) :
    ((licmRound ctx exprId counter e).2.1.map Binding.name).Nodup := by
  by_cases hflag : (licmRound ctx exprId counter e).2.2 = true
  · have hkeydep : ∀ b0 ∈ (dkf ((extract ctx e).2.2.map Prod.fst)).flatMap
        (fun dep => groupBindings ctx exprId (counter + 1) dep
          (groupSubexprs (extract ctx e).2.2 dep)),
        ∃ b ∈ (licmRound ctx exprId counter e).2.1, b0.dep = b.dep := by
      intro b0 hb0
      have hmem : b0 ∈ (licmRound ctx exprId counter e).2.1.map bNorm := by
        rw [licmRound_bindings_norm hflag]
        exact hb0
      obtain ⟨b, hb, hbe⟩ := List.mem_map.mp hmem
      refine ⟨b, hb, ?_⟩
      rw [← hbe]
      rfl
    have hmn : (licmRound ctx exprId counter e).2.1.map Binding.name =
        (((licmRound ctx exprId counter e).2.1.map bNorm).map Binding.name) := by
      rw [List.map_map]
      rfl
    rw [hmn, licmRound_bindings_norm hflag, List.map_flatMap,
      List.flatMap_def, List.nodup_flatten]
    constructor
    · intro l hl
      obtain ⟨dep, hdep, hle⟩ := List.mem_map.mp hl
      rcases hgrp : groupBindings ctx exprId (counter + 1) dep
          (groupSubexprs (extract ctx e).2.2 dep) with _ | ⟨b0, rest⟩
      · rw [← hle, hgrp]
        simp
      · have hb0g : b0 ∈ groupBindings ctx exprId (counter + 1) dep
            (groupSubexprs (extract ctx e).2.2 dep) := by
          rw [hgrp]
          exact List.mem_cons_self _ _
        have hb0f : b0 ∈ (dkf ((extract ctx e).2.2.map Prod.fst)).flatMap
            (fun dep => groupBindings ctx exprId (counter + 1) dep
              (groupSubexprs (extract ctx e).2.2 dep)) :=
          List.mem_flatMap.mpr ⟨dep, hdep, hb0g⟩
        obtain ⟨b, hb, hbd⟩ := hkeydep b0 hb0f
        have hdepeq : b0.dep = dep := (groupBindings_mem hb0g).1
        rw [← hle]
        apply groupBindings_names_nodup
        rw [← hdepeq, hbd]
        exact hu b hb
    · rw [List.pairwise_map]
      have hkeys := dkf_nodup ((extract ctx e).2.2.map Prod.fst)
      apply List.Pairwise.imp_of_mem ?_ hkeys
      intro d1 d2 hd1 hd2 hne
      intro n hn1 hn2
      obtain ⟨b1, hb1g, hb1n⟩ := List.mem_map.mp hn1
      obtain ⟨b2, hb2g, hb2n⟩ := List.mem_map.mp hn2
      obtain ⟨hdep1, hrn1, _, _, _, _, hname1⟩ := groupBindings_mem hb1g
      obtain ⟨hdep2, hrn2, _, _, _, _, hname2⟩ := groupBindings_mem hb2g
      have hb1f : b1 ∈ (dkf ((extract ctx e).2.2.map Prod.fst)).flatMap
          (fun dep => groupBindings ctx exprId (counter + 1) dep
            (groupSubexprs (extract ctx e).2.2 dep)) :=
        List.mem_flatMap.mpr ⟨d1, hd1, hb1g⟩
      have hb2f : b2 ∈ (dkf ((extract ctx e).2.2.map Prod.fst)).flatMap
          (fun dep => groupBindings ctx exprId (counter + 1) dep
            (groupSubexprs (extract ctx e).2.2 dep)) :=
        List.mem_flatMap.mpr ⟨d2, hd2, hb2g⟩
      obtain ⟨c1, hc1, hcd1⟩ := hkeydep b1 hb1f
      obtain ⟨c2, hc2, hcd2⟩ := hkeydep b2 hb2f
      have hu1 : ∀ c ∈ depComps d1, '_' ∉ c := by
        rw [← hdep1, hcd1]
        exact hu c1 hc1
      have hu2 : ∀ c ∈ depComps d2, '_' ∉ c := by
        rw [← hdep2, hcd2]
        exact hu c2 hc2
      have hnn : hoistName d1 exprId (counter + 1) b1.idx =
          hoistName d2 exprId (counter + 1) b2.idx := by
        rw [← hname1, ← hname2, hb1n, hb2n]
      have hdc : depComps d1 = depComps d2 := (hoistName_inj hu1 hu2 hnn).1
      have : c1.dep = c2.dep := by
        apply hinj c1 hc1 c2 hc2
        rw [← hcd1, ← hcd2, hdep1, hdep2]
        exact hdc
      rw [← hcd1, ← hcd2, hdep1, hdep2] at this
      exact hne this
  · have hb2 : (licmRound ctx exprId counter e).2.2 = false := by
      simpa using hflag
    rw [licmRound_not_extr hb2]
    simp

theorem licmLoop_names_nodup (ctx : LicmCtx) (exprId : Nat) :
    ∀ (fuel counter : Nat) (e : AExpr),
    (∀ b ∈ (licmLoop ctx exprId fuel counter e).2.1,
      ∀ c ∈ depComps b.dep, '_' ∉ c) →
    (∀ b1 ∈ (licmLoop ctx exprId fuel counter e).2.1,
      ∀ b2 ∈ (licmLoop ctx exprId fuel counter e).2.1,
      depComps b1.dep = depComps b2.dep → b1.dep = b2.dep) →
    ((licmLoop ctx exprId fuel counter e).2.1.map Binding.name).Nodup := by
  intro fuel
  induction fuel with
  | zero => intro c e _ _; simp [licmLoop]
  | succ f ih =>
      intro c e hu hinj
      by_cases hx : (licmRound ctx exprId c e).2.2 = true
      · have hout : (licmLoop ctx exprId (f + 1) c e).2.1 =
            (licmRound ctx exprId c e).2.1 ++
            (licmLoop ctx exprId f (c + 1) (licmRound ctx exprId c e).1).2.1 := by
          simp [licmLoop, hx]
        rw [hout] at hu hinj ⊢
        rw [List.map_append]
        rw [List.nodup_append]
        refine ⟨?_, ?_, ?_⟩
        · apply licmRound_names_nodup
          · intro b hb
            exact hu b (List.mem_append_left _ hb)
          · intro b1 hb1 b2 hb2
            exact hinj b1 (List.mem_append_left _ hb1) b2
              (List.mem_append_left _ hb2)
        · apply ih
          · intro b hb
            exact hu b (List.mem_append_right _ hb)
          · intro b1 hb1 b2 hb2
            exact hinj b1 (List.mem_append_right _ hb1) b2
              (List.mem_append_right _ hb2)
        · intro n hn1 hn2
          obtain ⟨b1, hb1, hb1n⟩ := List.mem_map.mp hn1
          obtain ⟨b2, hb2, hb2n⟩ := List.mem_map.mp hn2
          obtain ⟨hs1, hr1⟩ := licmRound_shape hb1
          obtain ⟨hs2, hr2⟩ := licmLoop_shape ctx exprId f (c + 1) _ b2 hb2
          have hnn : hoistName b1.dep exprId b1.roundNo b1.idx =
              hoistName b2.dep exprId b2.roundNo b2.idx := by
            rw [← hs1, ← hs2, hb1n, hb2n]
          have hu1 := hu b1 (List.mem_append_left _ hb1)
          have hu2 := hu b2 (List.mem_append_right _ hb2)
          have := (hoistName_inj hu1 hu2 hnn).2.2.1
          omega
      · have hb2 : (licmRound ctx exprId c e).2.2 = false := by simpa using hx
        simp [licmLoop, hb2]

theorem licmRun_shape {ctx : LicmCtx} {exprId : Nat} {e : AExpr} {b : Binding}
    (hb : b ∈ (licmRun ctx exprId 0 e).2.1) :
    b.name = hoistName b.dep exprId b.roundNo b.idx := by
  by_cases hc : checkLoops ctx.loops
  · simp only [licmRun, hc, if_true] at hb
    exact (licmLoop_shape ctx exprId (sizeA e + 1) 0 e b hb).1
  · simp [licmRun, hc] at hb

theorem licmRun_names_nodup {ctx : LicmCtx} {exprId : Nat} {e : AExpr}
    (hu : ∀ b ∈ (licmRun ctx exprId 0 e).2.1, ∀ c ∈ depComps b.dep, '_' ∉ c)
    (hinj : ∀ b1 ∈ (licmRun ctx exprId 0 e).2.1,
      ∀ b2 ∈ (licmRun ctx exprId 0 e).2.1,
      depComps b1.dep = depComps b2.dep → b1.dep = b2.dep) :
    ((licmRun ctx exprId 0 e).2.1.map Binding.name).Nodup := by
  by_cases hc : checkLoops ctx.loops
  · simp only [licmRun, hc, if_true] at hu hinj ⊢
    exact licmLoop_names_nodup ctx exprId (sizeA e + 1) 0 e hu hinj
  · simp [licmRun, hc]

/-! ## One optimization session: statements and expander events -/

/-- One `_expanded_sym` draw of a statement's expander (`_hoist`,
lines 556-559 and 576-579): the dependency giving `loop_dep` and the
value of `len(self.expanded_syms)` at creation time. -/
structure ExpEvent where
  dep : List Str
  idx : Nat
deriving DecidableEq

/-- The temporary names the hoister generates for one statement over a
whole `licm` run. -/
def licmNames (ctx : LicmCtx) (exprId : Nat) (e : AExpr) : List Str :=
  ((licmRun ctx exprId 0 e).2.1).map Binding.name

/-- Every dependency used for a name during a session: the hoisted
bindings' dependencies, then the expander events'. -/
def sessionDeps (ctx : LicmCtx) (stmts : List (Nat × AExpr))
    (expEvents : List (Nat × List ExpEvent)) : List (List Str) :=
  stmts.flatMap (fun q => ((licmRun ctx q.1 0 q.2).2.1).map Binding.dep) ++
  expEvents.flatMap (fun q => q.2.map ExpEvent.dep)

/-- Every temporary name generated during a session: per statement
(tagged with its registry expression identifier) the hoister's names,
then per statement the expander's names. -/
def sessionNames (ctx : LicmCtx) (stmts : List (Nat × AExpr))
    (expEvents : List (Nat × List ExpEvent)) : List Str :=
  stmts.flatMap (fun q => licmNames ctx q.1 q.2) ++
  expEvents.flatMap (fun q => q.2.map (fun ev => expName ev.dep q.1 ev.idx))

theorem dkfAux_all_seen {α : Type} [DecidableEq α] :
    ∀ (seen l : List α), (∀ x ∈ l, x ∈ seen) → dkfAux seen l = [] := by
  intro seen l
  induction l generalizing seen with
  | nil => intro _; rfl
  | cons x xs ih =>
      intro h
      have hx : x ∈ seen := h x (List.mem_cons_self _ _)
      simp only [dkfAux, hx, if_true]
      exact ih seen (fun y hy => h y (List.mem_cons_of_mem _ hy))

theorem dkf_const {α : Type} [DecidableEq α] (k : α) (l : List α)
    (h : ∀ x ∈ l, x = k) : dkf (k :: l) = [k] := by
  rw [dkf_cons, dkfAux_all_seen]
  intro x hx
  rw [h x hx]
  exact List.mem_cons_self _ _

/-! ## The claims -/

/-- **C2.** When a loop of the nest other than the outermost is not
perfect, `ExpressionHoister.licm` leaves the statement, the declarations,
the hoist tracker and the dependency graph unchanged; `permute` is a
no-op when the outermost loop is not perfect; `blas` returns without
transforming when the nest depth is not 3.  All three return normally
(the functions are total), no error value is produced. -/
theorem precondition_failures_are_noops (ctx : LicmCtx) (exprId counter : Nat)
    (st : HoistState) (loop : Stmt) (header : List Stmt) (transpose : Bool)
    {R : Type} (transform : Stmt → Option R × Stmt)
    (h1 : checkLoops ctx.loops = false)
    (h2 : isPerfectLoop loop = false)
    (h3 : maxDepth loop ≠ 3) :
    licmFull ctx exprId counter st = st ∧
    permuteModel loop header transpose = (loop, header) ∧
    blasModel transform loop = (none, loop) := by
  refine ⟨?_, ?_, ?_⟩
  · simp [licmFull, h1]
  · simp [permuteModel, h2]
  · simp [blasModel, h3]

def ctxC2 : LicmCtx :=
  { symDep := fun _ r _ => r
    dims := [['i'], ['j']]
    domain := [['i'], ['j']]
    loops := [.forS ['i'] 4 1 [.flat []],
              .forS ['j'] 4 1 [.flat [], .forS ['k'] 4 1 [.flat []]]]
    dimLoops := [(['i'], 4), (['j'], 4)]
    nrankTmps := false
    outerOnly := false }

def loopC2 : Stmt := .forS ['i'] 4 1 [.flat [], .forS ['j'] 4 1 [.flat []]]

def stC2 : HoistState :=
  { rhs := .prod (.sym ['a'] [['i']] none) (.sym ['b'] [['j']] none)
    decls := [(['a'], [4])]
    hoisted := []
    graph := [] }

theorem precondition_failures_are_noops_witness :
    checkLoops ctxC2.loops = false ∧ isPerfectLoop loopC2 = false ∧
    maxDepth loopC2 ≠ 3 ∧
    (licmFull ctxC2 0 0 stC2 = stC2 ∧
     permuteModel loopC2 [.flat ['h']] true = (loopC2, [.flat ['h']]) ∧
     blasModel (fun s => (some 7, s)) loopC2 = ((none : Option Nat), loopC2)) :=
  ⟨by decide, by decide, by decide,
   precondition_failures_are_noops ctxC2 0 0 stC2 loopC2 [.flat ['h']] true
     (fun s => (some 7, s)) (by decide) (by decide) (by decide)⟩

/-- **C9.** On a right-hand side with no ranked symbol, the standard-mode
dispatch of `expand` and `factorize` reaches the `IndexError` of the
`most_common(1)[0]` indexing (an unhandled crash), while an unknown mode
is skipped with a warning — the standard-mode entry points are not
total. -/
theorem standard_mode_not_total (domain : List Str) (rhs : AExpr) (mode : Str)
    (h : ∀ s ∈ collectSyms rhs, symRank s = [])
    (hm1 : mode ≠ "standard".data) (hm2 : mode ≠ "full".data)
    (hm3 : mode ≠ "immutable".data) :
    expandModeSelect "standard".data domain rhs = .crash ∧
    factorizeModeSelect "standard".data domain rhs = .crash ∧
    expandModeSelect mode domain rhs = .skipped ∧
    factorizeModeSelect mode domain rhs = .skipped := by
  have hd := @standardDimension_none domain rhs h
  refine ⟨?_, ?_, ?_, ?_⟩
  · simp [expandModeSelect, hd]
  · simp [factorizeModeSelect, hd]
  · simp [expandModeSelect, hm1, hm2]
  · simp [factorizeModeSelect, hm1, hm3]

def rhsC9 : AExpr := .sum (.sym ['a'] [] none) (.sym ['b'] [] none)

theorem standard_mode_not_total_witness :
    (∀ s ∈ collectSyms rhsC9, symRank s = []) ∧
    (expandModeSelect "standard".data [['i']] rhsC9 = .crash ∧
     factorizeModeSelect "standard".data [['i']] rhsC9 = .crash ∧
     expandModeSelect "weird".data [['i']] rhsC9 = .skipped ∧
     factorizeModeSelect "weird".data [['i']] rhsC9 = .skipped) :=
  ⟨by decide,
   standard_mode_not_total [['i']] rhsC9 "weird".data (by decide) (by decide)
     (by decide) (by decide)⟩

/-- **C10.** `LoopOptimizer.rewrite` clears both process-global
`_expr_handled` registries before processing any statement, at every
level including 0: the result is independent of the registries' prior
contents, and the first statement processed always receives expression
identifier 0 in both registries. -/
theorem rewrite_resets_registries (level : Nat) (stmts : List AExpr)
    (regs regs' : Registries) (s : AExpr) (rest : List AExpr)
    (hs : stmts = s :: rest) :
    rewriteRegistries level stmts regs = rewriteRegistries level stmts regs' ∧
    (rewriteRegistries level stmts regs).2.head? =
      some (0, 0, decide (level > 0)) := by
  constructor
  · rfl
  · subst hs
    have hstep : registerStmt ([] : List AExpr) s = (0, [s]) := by
      simp [registerStmt, indexOfA]
    simp only [rewriteRegistries, resetRegistries, List.foldl_cons, hstep,
      List.nil_append]
    obtain ⟨t, ht⟩ := foldl_registerStep_snd level rest ⟨[s], [s]⟩
      [(0, 0, decide (level > 0))]
    rw [ht]
    rfl

/-- The numeric value of a rewritten statement under symbol environment
`σ` and function environment `Φ`, with the produced temporaries expanded
back into their definitions. -/
def rewriteValue (ctx : LicmCtx)
    (σ : Str → List Str → Option (List (Nat × Nat)) → ℚ)
    (Φ : Str → List ℚ → ℚ) (exprId : Nat) (e : AExpr) : Option ℚ :=
  (rewrite2Stmt ctx exprId e).map (fun q => evalA σ Φ (substBindings q.2 q.1))

def ctxC1 : LicmCtx :=
  { symDep := fun _ r _ => r
    dims := [['i'], ['j']]
    domain := [['i'], ['j']]
    loops := [.forS ['i'] 6 1 [.forS ['j'] 6 1 [.flat []]],
              .forS ['j'] 6 1 [.flat []]]
    dimLoops := [(['i'], 6), (['j'], 6)]
    nrankTmps := false
    outerOnly := false }

/-- The failing statement: `P[i]*Q[j] - P[i]*Q[j]`. -/
def rhsC1 : AExpr :=
  .sub (.prod (.sym ['P'] [['i']] none) (.sym ['Q'] [['j']] none))
    (.prod (.sym ['P'] [['i']] none) (.sym ['Q'] [['j']] none))

/-- An environment binding every symbol to 1, except the literal `2`
(which the factorizer manufactures) to 2. -/
def envC1 : Str → List Str → Option (List (Nat × Nat)) → ℚ :=
  fun n _ _ => if n = ['2'] then 2 else 1

def phiC1 : Str → List ℚ → ℚ := fun _ _ => 0

/-- What the pipeline produces on `rhsC1`: the statement rewritten to
`I_0_1_0[i]*Q[j]` and the single hoisted binding `I_0_1_0 = (2*P[i])`
(the `2` manufactured by `_simplify_sum`). -/
def eC1out : AExpr :=
  .prod (.sym "I_0_1_0".data [['i']] none) (.sym ['Q'] [['j']] none)

def bC1out : Binding :=
  { name := "I_0_1_0".data
    dep := [['i']]
    roundNo := 1
    idx := 0
    sub := .prod (.sym ['2'] [] none) (.sym ['P'] [['i']] none)
    defn := .par (.prod (.sym ['2'] [] none) (.sym ['P'] [['i']] none))
    occRank := [['i']]
    declRank := [6]
    pos := .beforeNest
    wrap := [(['i'], 6)]
    multiple := false }

/-- **C1.** Refuted: the `rewrite(2)` pipeline (licm, standard-mode
expansion, standard-mode factorization, final licm) does not preserve the
evaluated value.  On `P[i]*Q[j] - P[i]*Q[j]`, whose value is 0 under
every environment, `_simplify_sum` treats the two sides of the `Sub` as
syntactically identical terms and folds them into a multiplicity-2
operand, so the rewritten statement (temporaries expanded back) evaluates
to `2·P[i]·Q[j]`, which is 2 ≠ 0 under the all-ones environment. -/
theorem rewrite_changes_value :
    rewrite2Stmt ctxC1 0 rhsC1 = some (eC1out, [bC1out]) ∧
    rewriteValue ctxC1 envC1 phiC1 0 rhsC1 = some 2 ∧
    evalA envC1 phiC1 rhsC1 = 0 ∧ (2 : ℚ) ≠ 0 := by
  have hpipe : rewrite2Stmt ctxC1 0 rhsC1 = some (eC1out, [bC1out]) := by decide
  have hsub : substBindings [bC1out] eC1out =
      .prod (.par (.prod (.sym ['2'] [] none) (.sym ['P'] [['i']] none)))
        (.sym ['Q'] [['j']] none) := by decide
  refine ⟨hpipe, ?_, ?_, by norm_num⟩
  · simp only [rewriteValue, hpipe, Option.map]
    rw [hsub]
    simp [evalA, envC1]
  · simp [rhsC1, evalA]

/-- **C3.** Placement of the temporaries of an extraction round, per
dependency set: empty dependency → scalar before the whole nest (no
wrapping loop, rankless occurrences); one dimension with a perfect
outermost loop → before the nest, computed in a new loop over that
dimension and indexed by it; one dimension, imperfect outer loop and
several expression dimensions → scalar at the top of the loop realizing
the dimension; one dimension otherwise → scalar at the bottom of that
loop; two or more dimensions → top of the loop realizing the first,
wrapped in loops over (and indexed by) the remaining dimensions. -/
theorem hoisted_placement (ctx : LicmCtx) (exprId counter : Nat) (e : AExpr)
    (b : Binding) (hb : b ∈ (licmRound ctx exprId counter e).2.1) :
    (b.dep = [] → b.pos = HPos.beforeNest ∧ b.wrap = [] ∧ b.occRank = []) ∧
    (∀ d, b.dep = [d] → ctx.outPerfect = true →
      b.pos = HPos.beforeNest ∧ b.wrap = [(d, dimSize ctx d)] ∧
      b.occRank = [d]) ∧
    (∀ d, b.dep = [d] → ctx.outPerfect = false → ctx.dimLoops.length > 1 →
      b.pos = HPos.topOfLoop d ∧ b.wrap = [] ∧ b.occRank = []) ∧
    (∀ d, b.dep = [d] → ctx.outPerfect = false → ¬ ctx.dimLoops.length > 1 →
      b.pos = HPos.bottomOfLoop d ∧ b.wrap = [] ∧ b.occRank = []) ∧
    (∀ d d2 rest, b.dep = d :: d2 :: rest →
      b.pos = HPos.topOfLoop d ∧
      b.wrap = (d2 :: rest).map (fun r => (r, dimSize ctx r)) ∧
      b.occRank = d2 :: rest) := by
  obtain ⟨dep, hg⟩ := licmRound_mem_norm hb
  obtain ⟨hdep, _, hpos, hwrap, hocc, _, _⟩ := groupBindings_mem hg
  have edep : (bNorm b).dep = b.dep := rfl
  have epos : (bNorm b).pos = b.pos := rfl
  have ewrap : (bNorm b).wrap = b.wrap := rfl
  have eocc : (bNorm b).occRank = b.occRank := rfl
  rw [edep] at hdep
  rw [epos] at hpos
  rw [ewrap] at hwrap
  rw [eocc] at hocc
  subst hdep
  refine ⟨?_, ?_, ?_, ?_, ?_⟩
  · intro h0
    rw [h0] at hpos hwrap hocc
    simp only [hoistPos] at hpos hwrap hocc
    exact ⟨hpos, hwrap, by simpa using hocc⟩
  · intro d h1 hperf
    rw [h1] at hpos hwrap hocc
    simp only [hoistPos, hperf, if_true] at hpos hwrap hocc
    exact ⟨hpos, hwrap, by simpa using hocc⟩
  · intro d h1 hperf hlen
    rw [h1] at hpos hwrap hocc
    simp [hoistPos, hperf, hlen] at hpos hwrap hocc
    exact ⟨hpos, hwrap, by simpa using hocc⟩
  · intro d h1 hperf hlen
    rw [h1] at hpos hwrap hocc
    simp [hoistPos, hperf, hlen] at hpos hwrap hocc
    exact ⟨hpos, hwrap, by simpa using hocc⟩
  · intro d d2 rest h2
    rw [h2] at hpos hwrap hocc
    simp only [hoistPos] at hpos hwrap hocc
    refine ⟨hpos, hwrap, ?_⟩
    rw [hocc]
    simp [Function.comp_def]

def ctxC3 : LicmCtx :=
  { symDep := fun _ r _ => r
    dims := [['i'], ['j']]
    domain := [['i'], ['j']]
    loops := [.forS ['i'] 6 1 [.forS ['j'] 6 1 [.flat []]],
              .forS ['j'] 6 1 [.flat []]]
    dimLoops := [(['i'], 6), (['j'], 6)]
    nrankTmps := false
    outerOnly := false }

/-- Scenario 3: `f[i]*g[i]*h[j]` in a perfect `i,j` nest. -/
def eC3 : AExpr :=
  .prod (.prod (.sym ['f'] [['i']] none) (.sym ['g'] [['i']] none))
    (.sym ['h'] [['j']] none)

def bC3 : Binding :=
  { name := "I_0_1_0".data
    dep := [['i']]
    roundNo := 1
    idx := 0
    sub := .prod (.sym ['f'] [['i']] none) (.sym ['g'] [['i']] none)
    defn := .par (.prod (.sym ['f'] [['i']] none) (.sym ['g'] [['i']] none))
    occRank := [['i']]
    declRank := [6]
    pos := .beforeNest
    wrap := [(['i'], 6)]
    multiple := false }

theorem hoisted_placement_witness :
    bC3 ∈ (licmRound ctxC3 0 0 eC3).2.1 ∧ bC3.dep = [['i']] ∧
    ctxC3.outPerfect = true ∧
    (bC3.pos = HPos.beforeNest ∧ bC3.wrap = [(['i'], dimSize ctxC3 ['i'])] ∧
     bC3.occRank = [['i']]) :=
  ⟨by decide, by decide, by decide,
   (hoisted_placement ctxC3 0 0 eC3 bC3 (by decide)).2.1 ['i'] rfl rfl⟩

/-- **C4.** On every finite expression, the `while True` classify-and-extract
loop of `ExpressionHoister.licm` terminates: with fuel one beyond the node
count it exits through its own fixpoint test (`if not self.extracted:
break`), the number of extracting rounds is bounded by the node count of
the original tree, and the expression the loop stops at extracts
nothing — the loop exits on the first round without an extraction. -/
theorem licm_loop_terminates (ctx : LicmCtx) (exprId counter : Nat) (e : AExpr)
    (_hneg : negFree e = true) :
    (licmLoop ctx exprId (sizeA e + 1) counter e).2.2.2 = true ∧
    (licmLoop ctx exprId (sizeA e + 1) counter e).2.2.1 ≤ sizeA e ∧
    (extract ctx (licmLoop ctx exprId (sizeA e + 1) counter e).1).2.2 = [] := by
  have hfuel : nsize e < sizeA e + 1 :=
    Nat.lt_succ_of_le (nsize_le_sizeA e)
  obtain ⟨h1, h2⟩ := licmLoop_finishes ctx exprId (sizeA e + 1) counter e hfuel
  exact ⟨h1, le_trans h2 (nsize_le_sizeA e),
    licmLoop_fixpoint ctx exprId (sizeA e + 1) counter e h1⟩

def ctxC4 : LicmCtx :=
  { symDep := fun _ r _ => r.flatten.map (fun c => [c])
    dims := [['i'], ['j']]
    domain := [['i'], ['j']]
    loops := [.forS ['i'] 6 1 [.forS ['j'] 6 1 [.flat []]],
              .forS ['j'] 6 1 [.flat []]]
    dimLoops := [(['i'], 6), (['j'], 6)]
    nrankTmps := false
    outerOnly := false }

def eC4 : AExpr :=
  .prod (.prod (.sym ['f'] [['i']] none) (.sym ['g'] [['i']] none))
    (.sym ['h'] [['j']] none)

theorem licm_loop_terminates_witness :
    negFree eC4 = true ∧
    ((licmLoop ctxC4 0 (sizeA eC4 + 1) 0 eC4).2.2.2 = true ∧
     (licmLoop ctxC4 0 (sizeA eC4 + 1) 0 eC4).2.2.1 ≤ sizeA eC4 ∧
     (extract ctxC4 (licmLoop ctxC4 0 (sizeA eC4 + 1) 0 eC4).1).2.2 = []) :=
  ⟨by decide, licm_loop_terminates ctxC4 0 0 eC4 (by decide)⟩

/-- **C8.** `rewrite(1)` is idempotent: a second `licm` run on the output
of a first run performs zero extraction rounds and leaves the expression
unchanged, whatever round counter the hoister instance carries into the
second run. -/
theorem licm_idempotent (ctx : LicmCtx) (exprId1 exprId2 counter2 : Nat)
    (e : AExpr) (_hneg : negFree e = true) :
    licmRun ctx exprId2 counter2 (licmRun ctx exprId1 0 e).1 =
      ((licmRun ctx exprId1 0 e).1, [], 0, true) := by
  by_cases hc : checkLoops ctx.loops
  · have hfin : (licmLoop ctx exprId1 (sizeA e + 1) 0 e).2.2.2 = true :=
      (licmLoop_finishes ctx exprId1 (sizeA e + 1) 0 e
        (Nat.lt_succ_of_le (nsize_le_sizeA e))).1
    have hnil := licmLoop_fixpoint ctx exprId1 (sizeA e + 1) 0 e hfin
    have h1 : (licmRun ctx exprId1 0 e).1 =
        (licmLoop ctx exprId1 (sizeA e + 1) 0 e).1 := by
      simp [licmRun, hc]
    rw [h1]
    simp only [licmRun, hc, if_true]
    rcases hsz : sizeA (licmLoop ctx exprId1 (sizeA e + 1) 0 e).1 with _ | n
    · exact absurd hsz (Nat.pos_iff_ne_zero.mp (sizeA_pos _))
    · exact licmLoop_of_extract_nil (n + 1) counter2 _ hnil
  · simp [licmRun, hc]

theorem licm_idempotent_witness :
    negFree eC4 = true ∧
    licmRun ctxC4 0 5 (licmRun ctxC4 0 0 eC4).1 =
      ((licmRun ctxC4 0 0 eC4).1, [], 0, true) :=
  ⟨by decide, licm_idempotent ctxC4 0 0 5 eC4 (by decide)⟩

/-- **C6.** The factorizer's regrouping: (i) two additive terms whose
operand products print identically are merged by `_factorize` into a
single product of the first term's operand set with their factor
products joined under the node's class (`op1*f1 + op1*f2` →
`op1*(f1+f2)`); (ii) `_simplify_sum` folds `n` syntactically identical
terms into the first of them carrying an explicit multiplicity-`n`
constant operand; (iii) Scenario 1: `A[i]*B[j] + A[i]*C[j]` with the
standard-mode predicate on `i` factorizes to the single product
`A[i]*(B[j]+C[j])`. -/
theorem factorize_groups_common_operands
    (c : BinC) (t1 t2 t : FTerm) (ts : List FTerm)
    (h1 : render t2.operandsAst = render t1.operandsAst)
    (h2 : t1.operands.isEmpty = false)
    (h3 : t1.factors.isEmpty = false) (h4 : t2.factors.isEmpty = false)
    (h5 : strLe (render t1.factorsAst) (render t2.factorsAst) = true)
    (h6 : ∀ t' ∈ ts, render t'.generateAst = render t.generateAst)
    (h7 : ts ≠ []) :
    (factorGroup c [t1, t2]).1 =
      .prod t1.operandsAst (applyB c t1.factorsAst t2.factorsAst) ∧
    simplifySum (t :: ts) =
      [{ t with operands :=
          t.operands ++ [.sym (natStr (ts.length + 1)) [] none] }] ∧
    factorizeRun (dimPred [['i']])
      (.sum (.prod (.sym ['A'] [['i']] none) (.sym ['B'] [['j']] none))
            (.prod (.sym ['A'] [['i']] none) (.sym ['C'] [['j']] none))) =
      some (.prod (.sym ['A'] [['i']] none)
        (.sum (.sym ['B'] [['j']] none) (.sym ['C'] [['j']] none))) := by
  refine ⟨?_, ?_, by decide⟩
  · have hd : dkf [render t1.operandsAst, render t2.operandsAst] =
        [render t1.operandsAst] := dkf_const _ _ (by simp [h1])
    have hf : [t1, t2].filter
        (fun t => render t.operandsAst = render t1.operandsAst) = [t1, t2] := by
      simp [h1]
    simp only [factorGroup, hd, List.map_cons, List.map_nil, hf]
    simp only [h2, Bool.false_eq_true, if_false, List.flatMap_cons,
      List.flatMap_nil, h3, h4, List.append_nil, List.nil_append]
    simp [astMake, FTerm.generateAst, FTerm.operandsAst,
      sortR, insertR, h5]
    show astMake c (sortR [t1.factorsAst, t2.factorsAst]) = _
    simp [sortR, insertR, astMake, h5]
  · have hd : dkf (render t.generateAst ::
        ts.map (fun t => render t.generateAst)) =
        [render t.generateAst] := dkf_const _ _ (by
      intro x hx
      obtain ⟨t', ht', he⟩ := List.mem_map.mp hx
      rw [← he, h6 t' ht'])
    have hf : (t :: ts).filter
        (fun t' => render t'.generateAst = render t.generateAst) = t :: ts := by
      rw [List.filter_cons_of_pos (by simp)]
      congr 1
      rw [List.filter_eq_self]
      intro t' ht'
      simp [h6 t' ht']
    have hne : ts.isEmpty = false := by
      cases ts
      · exact absurd rfl h7
      · rfl
    simp only [simplifySum, hd, List.map_cons, List.map_nil, hf, hne,
      Bool.false_eq_true, if_false]

def ctxC5 : LicmCtx :=
  { symDep := fun _ r _ => r
    dims := [['a'], ['b'], ['a', '_', 'b']]
    domain := [['a'], ['b'], ['a', '_', 'b']]
    loops := [.forS ['a'] 2 1 [.forS ['b'] 3 1
      [.forS ['a', '_', 'b'] 4 1 [.flat []]]]]
    dimLoops := [(['a'], 2), (['b'], 3), (['a', '_', 'b'], 4)]
    nrankTmps := true
    outerOnly := false }

/-- `(X[a]*Y[b]) * (Z[a_b]*W[a_b])`: one sub-expression depends on the
dimension pair `('a', 'b')`, the other on the single dimension `'a_b'`;
`'_'.join` maps both to `A_B`. -/
def eC5 : AExpr :=
  .prod (.prod (.sym ['X'] [['a']] none) (.sym ['Y'] [['b']] none))
        (.prod (.sym ['Z'] [['a', '_', 'b']] none)
               (.sym ['W'] [['a', '_', 'b']] none))

/-- **C5 counterexample.** Within a single statement and a single licm
round, the dependency pair `('a','b')` and the one-dimension dependency
`('a_b',)` render to the same `loop_dep` component `A_B`, and the two
temporaries of round 1 both receive the name `A_B_0_1_0`: session names
are not pairwise distinct. -/
theorem hoist_names_collide :
    sessionNames ctxC5 [(0, eC5)] [] =
      ["A_B_0_1_0".data, "A_B_0_1_0".data, "B_A_B_0_2_0".data] ∧
    ¬ (sessionNames ctxC5 [(0, eC5)] []).Nodup := by decide

/-- **C5** (amended: distinctness requires the dependency dimensions to
be collision-free under the `'_'.join(...).upper()` rendering; the
original claim fails, see the counterexample).  All temporary names of a
session — the hoister's, across every statement and every extraction
round, and the expander's — are pairwise distinct, provided the
statements' expression identifiers are distinct, each expander draw
counter is used once per statement, no dependency component renders with
an underscore, and the component rendering is injective on the session's
dependencies.  Determinism is definitional: the names are a function of
the session's inputs. -/
theorem session_names_distinct (ctx : LicmCtx) (stmts : List (Nat × AExpr))
    (expEvents : List (Nat × List ExpEvent))
    (hids : (stmts.map Prod.fst).Nodup)
    (heids : (expEvents.map Prod.fst).Nodup)
    (hevidx : ∀ q ∈ expEvents, (q.2.map ExpEvent.idx).Nodup)
    (hu : ∀ dep ∈ sessionDeps ctx stmts expEvents, ∀ c ∈ depComps dep, '_' ∉ c)
    (hinj : ∀ dep1 ∈ sessionDeps ctx stmts expEvents,
      ∀ dep2 ∈ sessionDeps ctx stmts expEvents,
      depComps dep1 = depComps dep2 → dep1 = dep2) :
    (sessionNames ctx stmts expEvents).Nodup := by
  have hmemH : ∀ q ∈ stmts, ∀ b ∈ (licmRun ctx q.1 0 q.2).2.1,
      b.dep ∈ sessionDeps ctx stmts expEvents := by
    intro q hq b hb
    exact List.mem_append_left _
      (List.mem_flatMap.mpr ⟨q, hq, List.mem_map_of_mem _ hb⟩)
  have hmemE : ∀ q ∈ expEvents, ∀ ev ∈ q.2,
      ev.dep ∈ sessionDeps ctx stmts expEvents := by
    intro q hq ev hev
    exact List.mem_append_right _
      (List.mem_flatMap.mpr ⟨q, hq, List.mem_map_of_mem _ hev⟩)
  rw [sessionNames, List.nodup_append]
  refine ⟨?_, ?_, ?_⟩
  · rw [List.flatMap_def, List.nodup_flatten]
    constructor
    · intro l hl
      obtain ⟨q, hq, hle⟩ := List.mem_map.mp hl
      rw [← hle]
      apply licmRun_names_nodup
      · intro b hb
        exact hu b.dep (hmemH q hq b hb)
      · intro b1 hb1 b2 hb2
        exact hinj b1.dep (hmemH q hq b1 hb1) b2.dep (hmemH q hq b2 hb2)
    · rw [List.pairwise_map]
      have hp : stmts.Pairwise (fun q1 q2 => q1.1 ≠ q2.1) :=
        List.pairwise_map.mp hids
      apply List.Pairwise.imp_of_mem ?_ hp
      intro q1 q2 hq1 hq2 hne n hn1 hn2
      obtain ⟨b1, hb1, hb1n⟩ := List.mem_map.mp hn1
      obtain ⟨b2, hb2, hb2n⟩ := List.mem_map.mp hn2
      have hs1 := licmRun_shape hb1
      have hs2 := licmRun_shape hb2
      have hnn : hoistName b1.dep q1.1 b1.roundNo b1.idx =
          hoistName b2.dep q2.1 b2.roundNo b2.idx := by
        rw [← hs1, ← hs2, hb1n, hb2n]
      have hu1 := hu b1.dep (hmemH q1 hq1 b1 hb1)
      have hu2 := hu b2.dep (hmemH q2 hq2 b2 hb2)
      exact hne (hoistName_inj hu1 hu2 hnn).2.1
  · rw [List.flatMap_def, List.nodup_flatten]
    constructor
    · intro l hl
      obtain ⟨q, hq, hle⟩ := List.mem_map.mp hl
      rw [← hle]
      have hpidx : q.2.Pairwise (fun ev1 ev2 => ev1.idx ≠ ev2.idx) :=
        List.pairwise_map.mp (hevidx q hq)
      have hpn : q.2.Pairwise (fun ev1 ev2 =>
          expName ev1.dep q.1 ev1.idx ≠ expName ev2.dep q.1 ev2.idx) := by
        apply List.Pairwise.imp_of_mem ?_ hpidx
        intro ev1 ev2 hev1 hev2 hne heq
        exact hne (expName_inj (hu _ (hmemE q hq ev1 hev1))
          (hu _ (hmemE q hq ev2 hev2)) heq).2.2
      exact List.pairwise_map.mpr hpn
    · rw [List.pairwise_map]
      have hp : expEvents.Pairwise (fun q1 q2 => q1.1 ≠ q2.1) :=
        List.pairwise_map.mp heids
      apply List.Pairwise.imp_of_mem ?_ hp
      intro q1 q2 hq1 hq2 hne n hn1 hn2
      obtain ⟨ev1, hev1, he1⟩ := List.mem_map.mp hn1
      obtain ⟨ev2, hev2, he2⟩ := List.mem_map.mp hn2
      have heq : expName ev1.dep q1.1 ev1.idx =
          expName ev2.dep q2.1 ev2.idx := by
        rw [he1, he2]
      exact hne (expName_inj (hu _ (hmemE q1 hq1 ev1 hev1))
        (hu _ (hmemE q2 hq2 ev2 hev2)) heq).2.1
  · intro n hn1 hn2
    obtain ⟨q1, hq1, hn1'⟩ := List.mem_flatMap.mp hn1
    obtain ⟨b, hb, hbn⟩ := List.mem_map.mp hn1'
    obtain ⟨q2, hq2, hn2'⟩ := List.mem_flatMap.mp hn2
    obtain ⟨ev, hev, hevn⟩ := List.mem_map.mp hn2'
    have hs := licmRun_shape hb
    have heq : hoistName b.dep q1.1 b.roundNo b.idx =
        expName ev.dep q2.1 ev.idx := by
      rw [← hs, hbn, hevn]
    exact hoistName_ne_expName (hu _ (hmemH q1 hq1 b hb))
      (hu _ (hmemE q2 hq2 ev hev)) heq

def stmtsC5W : List (Nat × AExpr) :=
  [(0, eC3),
   (1, .prod (.prod (.sym ['u'] [['j']] none) (.sym ['v'] [['j']] none))
        (.sym ['w'] [['i']] none))]

def expEventsC5W : List (Nat × List ExpEvent) :=
  [(0, [⟨[['i']], 0⟩, ⟨[['j']], 1⟩]), (1, [⟨[['i']], 0⟩])]

theorem session_names_distinct_witness :
    ((stmtsC5W.map Prod.fst).Nodup ∧
     (expEventsC5W.map Prod.fst).Nodup ∧
     (∀ q ∈ expEventsC5W, (q.2.map ExpEvent.idx).Nodup) ∧
     (∀ dep ∈ sessionDeps ctxC3 stmtsC5W expEventsC5W,
       ∀ c ∈ depComps dep, '_' ∉ c) ∧
     (∀ dep1 ∈ sessionDeps ctxC3 stmtsC5W expEventsC5W,
       ∀ dep2 ∈ sessionDeps ctxC3 stmtsC5W expEventsC5W,
       depComps dep1 = depComps dep2 → dep1 = dep2)) ∧
    (sessionNames ctxC3 stmtsC5W expEventsC5W).Nodup :=
  ⟨⟨by decide, by decide, by decide, by decide, by decide⟩,
   session_names_distinct ctxC3 stmtsC5W expEventsC5W (by decide) (by decide)
     (by decide) (by decide) (by decide)⟩

def t1C6 : FTerm :=
  ⟨[.sym ['A'] [['i']] none], [.sym ['B'] [['j']] none], some .bProd⟩

def t2C6 : FTerm :=
  ⟨[.sym ['A'] [['i']] none], [.sym ['C'] [['j']] none], some .bProd⟩

theorem factorize_groups_common_operands_witness :
    (render t2C6.operandsAst = render t1C6.operandsAst ∧
     t1C6.operands.isEmpty = false ∧ t1C6.factors.isEmpty = false ∧
     t2C6.factors.isEmpty = false ∧
     strLe (render t1C6.factorsAst) (render t2C6.factorsAst) = true ∧
     (∀ t' ∈ [t1C6], render t'.generateAst = render t1C6.generateAst) ∧
     [t1C6] ≠ []) ∧
    (factorGroup .bSum [t1C6, t2C6]).1 =
      .prod t1C6.operandsAst (applyB .bSum t1C6.factorsAst t2C6.factorsAst) :=
  ⟨⟨by decide, by decide, by decide, by decide, by decide, by decide, by simp⟩,
   (factorize_groups_common_operands .bSum t1C6 t2C6 t1C6 [t1C6] (by decide)
     (by decide) (by decide) (by decide) (by decide) (by decide) (by simp)).1⟩

def stC7 : UnState :=
  { loops := [⟨['i'], 6, 1⟩]
    exprs := [⟨.sym ['A'] [['i']] none, .sym ['B'] [['i']] none, [0]⟩] }

/-- **C7 counterexample.** `unroll` with factor 3 on a loop
`for (i = 0; i < 6; i += 1)` appends the two clones but raises the
loop's *increment* by `u - 1` (line 275 adds to
`loop.incr.children[1].symbol`), so the trip count drops from 6 to 2
instead of increasing by `u - 1 = 2` as the claim states. -/
theorem unroll_trip_count_drops :
    (unroll [(['i'], 3)] stC7).loops = [⟨['i'], 6, 3⟩] ∧
    tripCount ⟨['i'], 6, 1⟩ = 6 ∧ tripCount ⟨['i'], 6, 3⟩ = 2 ∧
    (unroll [(['i'], 3)] stC7).exprs.length = 3 ∧
    ¬ tripCount ⟨['i'], 6, 3⟩ = tripCount ⟨['i'], 6, 1⟩ + 2 := by decide

/-- **C7** (amended: the loop's *increment* is raised by `u - 1`, once
per loop, so its trip count is divided rather than increased).  For a
single-entry `loop_ufs` map: the tracked expressions are the snapshot
followed by the clones — `u - 1` offset-shifted copies (shifts `1` to
`u - 1`) of every expression having a perfect loop over `d`, none for
the others; each loop targeted by at least one expression has its
increment raised by `u - 1` exactly once, every other loop is untouched;
and `update_expr` adds the shift to the offset of every symbol rank
entry along `d`. -/
theorem unroll_clones_and_increments (d : Str) (u : Nat) (st : UnState)
    (_hu : 1 ≤ u) :
    (unroll [(d, u)] st).exprs =
      st.exprs ++ st.exprs.flatMap (unrollClones st.loops d u) ∧
    (∀ ex, findTargetLoop st.loops ex d = none →
      unrollClones st.loops d u ex = []) ∧
    (∀ j l, st.loops.get? j = some l →
      (unroll [(d, u)] st).loops.get? j =
        some (if ∃ ex ∈ st.exprs, findTargetLoop st.loops ex d = some j
          then { l with incr := l.incr + (u - 1) } else l)) ∧
    (∀ e k, offsetsAlong d (updateExpr d k e) =
      (offsetsAlong d e).map (fun q => (q.1, q.2 + k))) := by
  obtain ⟨c1, c2, c3, c4⟩ := unroll_fold_inv d u st.loops st.exprs st.loops [] []
    (fun j => rfl) (by intro j l h; simpa using h)
  refine ⟨?_, ?_, ?_, fun e k => offsetsAlong_updateExpr d k e⟩
  · show st.exprs ++ (st.exprs.foldl (unrollStep d u) (st.loops, [], [])).2.1 = _
    rw [c1]
    simp
  · intro ex h
    simp [unrollClones, h]
  · intro j l hl
    have h4 := c4 j l hl
    have hiff : (j ∈ (st.exprs.foldl (unrollStep d u) (st.loops, [], [])).2.2) ↔
        (∃ ex ∈ st.exprs, findTargetLoop st.loops ex d = some j) := by
      rw [c3 j]
      simp
    show (st.exprs.foldl (unrollStep d u) (st.loops, [], [])).1.get? j = _
    rw [h4]
    simp only [hiff]

def stC7W : UnState :=
  { loops := [⟨['i'], 6, 1⟩, ⟨['j'], 4, 1⟩]
    exprs := [⟨.sym ['A'] [['i']] none, .sym ['B'] [['i']] (some [(1, 0)]), [0]⟩,
              ⟨.sym ['C'] [['i']] none, .sym ['D'] [['i']] none, [0]⟩,
              ⟨.sym ['E'] [['j']] none, .sym ['F'] [['j']] none, [1]⟩] }

theorem unroll_clones_and_increments_witness :
    1 ≤ 3 ∧
    (unroll [(['i'], 3)] stC7W).exprs =
      stC7W.exprs ++ stC7W.exprs.flatMap (unrollClones stC7W.loops ['i'] 3) :=
  ⟨by decide, (unroll_clones_and_increments ['i'] 3 stC7W (by decide)).1⟩

theorem rewrite_resets_registries_witness :
    rewriteRegistries 0 [AExpr.sym ['a'] [] none] ⟨[.sym ['z'] [] none], []⟩ =
      rewriteRegistries 0 [AExpr.sym ['a'] [] none] ⟨[], [.sym ['y'] [] none]⟩ ∧
    (rewriteRegistries 0 [AExpr.sym ['a'] [] none]
      ⟨[.sym ['z'] [] none], []⟩).2.head? = some (0, 0, decide (0 > 0)) :=
  rewrite_resets_registries 0 [AExpr.sym ['a'] [] none]
    ⟨[.sym ['z'] [] none], []⟩ ⟨[], [.sym ['y'] [] none]⟩
    (AExpr.sym ['a'] [] none) [] rfl

end Coffee
